import Mathlib

/-!
Ham-to-ED: a shallow embedding of `Ham-to-ED-UB.cpp`

The program searches for embeddings of binary strings under which Hamming distance and
edit distance coincide.  The definitions below follow the functions of the source file:
`generateBinaryStrings`, `embed_with_array`, `generateValidARec`, `generate_valid_A`,
`hamming_distance`, `edit_distance` and the nested search loops of `main`.

Modelling conventions.
* `std::string` is a list of characters (`Str`); `std::vector<int>` is a `List Int`.
* `int` values are unbounded integers, except for `1 << length`, where the 32-bit
  wrap-around is made explicit; lengths and distances, which are never negative, are naturals.
* An exception, a failed `assert` or an access with undefined behaviour is a `Fault`.
* The recursion of `generateValidARec` carries a fuel argument bounding its depth.
-/

namespace HamToED

/-- A `std::string`. -/
abbrev Str := List Char

/-- The ways in which a call can fail to return a value. -/
inductive Fault where
  /-- The exception `std::out_of_range` thrown by `std::string::substr`. -/
  | outOfRange
  /-- An `assert` whose condition is false. -/
  | assertionFailed
  /-- An access whose behaviour the language leaves undefined. -/
  | undefinedBehaviour
  deriving DecidableEq, Repr

/-- Equality of results is decidable, so that closed evaluations can be checked. -/
instance decEqResult {α : Type} [DecidableEq α] : DecidableEq (Except Fault α) := fun a b =>
  match a, b with
  | Except.ok x, Except.ok y =>
    if h : x = y then isTrue (by rw [h]) else isFalse (fun e => h (by cases e; rfl))
  | Except.error f, Except.error g =>
    if h : f = g then isTrue (by rw [h]) else isFalse (fun e => h (by cases e; rfl))
  | Except.ok _, Except.error _ => isFalse (fun e => by cases e)
  | Except.error _, Except.ok _ => isFalse (fun e => by cases e)

/-! ## generateBinaryStrings -/

/-- The value of a mathematical integer stored in a 32-bit two's complement `int`. -/
def wrapInt32 (z : Int) : Int := (z + 2 ^ 31) % 2 ^ 32 - 2 ^ 31

/-- The inner loop of `generateBinaryStrings`: for `j = length - 1` down to `0`, push
`((i >> j) & 1) ? '1' : '0'`. -/
def bitString (length i : Nat) : Str :=
  (List.range length).reverse.map (fun j => if (i >>> j) &&& 1 ≠ 0 then '1' else '0')

/-- `generateBinaryStrings(length)`: `total = 1 << length` as an `int`, then one string for
each `i` with `0 <= i < total`.  The shift is exact for `length <= 30`; beyond that it
overflows the `int`, which the wrap-around renders as a `total` that is not positive. -/
def generateBinaryStrings (length : Nat) : List Str :=
  let total : Int := wrapInt32 (2 ^ length)
  (List.range total.toNat).map (fun i => bitString length i)

/-! ## embed_with_array -/

/-- `x[i]` on a `std::string`: the character at `i`, the null character at `i == size()`,
undefined beyond. -/
def charAt (x : Str) (i : Nat) : Except Fault Char :=
  if i < x.length then Except.ok (x.getD i (Char.ofNat 0))
  else if i = x.length then Except.ok (Char.ofNat 0)
  else Except.error Fault.undefinedBehaviour

/-- `y.substr(pointer, k)` with `int` arguments converted to `size_t`: throws when the start
lies beyond the end of `y` (a negative start converts to a huge one), and returns at most
`k` characters (a negative `k` converts to a huge count, so the rest of `y`). -/
def substr (y : Str) (pointer k : Int) : Except Fault Str :=
  if pointer < 0 ∨ (y.length : Int) < pointer then Except.error Fault.outOfRange
  else if k < 0 then Except.ok (y.drop pointer.toNat)
  else Except.ok ((y.drop pointer.toNat).take k.toNat)

/-- The loop of `embed_with_array` over the remaining entries of `A`, from index `i`, with
the cursor `pointer` into `y` and the string built so far. -/
def embedLoop (x y : Str) : List Int → Nat → Int → Str → Except Fault Str
  | [], _, _, result => Except.ok result
  | k :: rest, i, pointer, result =>
    match charAt x i with
    | Except.error f => Except.error f
    | Except.ok c =>
      match substr y pointer k with
      | Except.error f => Except.error f
      | Except.ok piece => embedLoop x y rest (i + 1) (pointer + k) (result ++ [c] ++ piece)

/-- `embed_with_array(x, y, A)`: the loop, then `result.push_back(x.back())`. -/
def embed_with_array (x y : Str) (A : List Int) : Except Fault Str :=
  match embedLoop x y A 0 0 [] with
  | Except.error f => Except.error f
  | Except.ok result =>
    match x.getLast? with
    | none => Except.error Fault.undefinedBehaviour
    | some c => Except.ok (result ++ [c])

/-! ## generateValidARec and generate_valid_A -/

/-- The vectors `current` and `result` that `generateValidARec` updates in place. -/
abbrev GenState := List Int × List (List Int)

/-- The test on one adjacent pair: `(0,0)`, `(0,1)` or `(1,0)`. -/
def forbiddenPair (a b : Int) : Bool :=
  (a == 0 && (b == 0 || b == 1)) || (a == 1 && b == 0)

/-- The loop `for (int i = 0; i < length - 1; i++)` that clears `valid` and breaks at the
first forbidden adjacent pair; the list holds the indices still to visit. -/
def validLoop (current : List Int) : List Nat → Bool
  | [] => true
  | i :: rest =>
    if forbiddenPair (current.getD i 0) (current.getD (i + 1) 0) then false
    else validLoop current rest

/-- The loop `for (int val = 0; val <= 8; val++)` over the values still to try, with its
`break` once `sum + val > targetSum`; `body` is the assignment and the recursive call. -/
def forVals (body : Int → GenState → Option GenState) (sum targetSum : Int) :
    List Int → GenState → Option GenState
  | [], st => some st
  | val :: rest, st =>
    if sum + val > targetSum then some st
    else
      match body val st with
      | none => none
      | some st' => forVals body sum targetSum rest st'

/-- The values `0, 1, ..., 8` of the loop variable `val`. -/
def candidateValues : List Int := [0, 1, 2, 3, 4, 5, 6, 7, 8]

/-- `generateValidARec(pos, length, sum, targetSum, current, result)`; `none` when the fuel
does not cover the depth of the recursion.  The source requires `current` to have at least
`length` entries: `current[pos] = val` is `set`, and the adjacency loop reads with `getD`. -/
def generateValidARec : Nat → Nat → Nat → Int → Int → GenState → Option GenState
  | 0, _, _, _, _, _ => none
  | fuel + 1, pos, length, sum, targetSum, st =>
    if pos = length then
      if sum = targetSum then
        if validLoop st.1 (List.range (length - 1)) then some (st.1, st.2 ++ [st.1])
        else some st
      else some st
    else
      forVals (fun val st' =>
          generateValidARec fuel (pos + 1) length (sum + val) targetSum (st'.1.set pos val, st'.2))
        sum targetSum candidateValues st

/-- `generate_valid_A()`: length 9, target sum 12, `current` initialised to zeros. -/
def generate_valid_A : Option (List (List Int)) :=
  (generateValidARec 10 0 9 0 12 (List.replicate 9 0, [])).map Prod.snd

/-! ## hamming_distance and edit_distance -/

/-- `hamming_distance(s1, s2)`: the assertion on the sizes, then the counting loop. -/
def hamming_distance (s1 s2 : Str) : Except Fault Nat :=
  if s1.length ≠ s2.length then Except.error Fault.assertionFailed
  else
    Except.ok ((List.range s1.length).foldl
      (fun distance i =>
        if s1.getD i (Char.ofNat 0) ≠ s2.getD i (Char.ofNat 0) then distance + 1 else distance) 0)

/-- `dp[i][j]`. -/
def dpGet (dp : List (List Nat)) (i j : Nat) : Nat := (dp.getD i []).getD j 0

/-- `dp[i][j] = v`. -/
def dpSet (dp : List (List Nat)) (i j v : Nat) : List (List Nat) :=
  dp.set i ((dp.getD i []).set j v)

/-- The loop `for (int i = 0; i <= m; i++) dp[i][0] = i`. -/
def initFirstColumn (m : Nat) (dp : List (List Nat)) : List (List Nat) :=
  (List.range' 0 (m + 1)).foldl (fun dp i => dpSet dp i 0 i) dp

/-- The loop `for (int j = 0; j <= n; j++) dp[0][j] = j`. -/
def initFirstRow (n : Nat) (dp : List (List Nat)) : List (List Nat) :=
  (List.range' 0 (n + 1)).foldl (fun dp j => dpSet dp 0 j j) dp

/-- The body of the inner loop of `edit_distance` at the cell `(i, j)`. -/
def fillCell (s1 s2 : Str) (dp : List (List Nat)) (i j : Nat) : List (List Nat) :=
  if s1.getD (i - 1) (Char.ofNat 0) = s2.getD (j - 1) (Char.ofNat 0) then
    dpSet dp i j (dpGet dp (i - 1) (j - 1))
  else
    dpSet dp i j
      (1 + min (dpGet dp (i - 1) j) (min (dpGet dp i (j - 1)) (dpGet dp (i - 1) (j - 1))))

/-- The loop `for (int j = 1; j <= n; j++)` for the row `i`. -/
def fillRow (s1 s2 : Str) (n : Nat) (dp : List (List Nat)) (i : Nat) : List (List Nat) :=
  (List.range' 1 n).foldl (fun dp j => fillCell s1 s2 dp i j) dp

/-- The loop `for (int i = 1; i <= m; i++)`. -/
def fillTable (s1 s2 : Str) (m n : Nat) (dp : List (List Nat)) : List (List Nat) :=
  (List.range' 1 m).foldl (fun dp i => fillRow s1 s2 n dp i) dp

/-- `edit_distance(s1, s2)`: the `(m+1) x (n+1)` table of zeros, the two boundary loops, the
filling loops, and the bottom-right cell. -/
def edit_distance (s1 s2 : Str) : Nat :=
  let m := s1.length
  let n := s2.length
  let dp := List.replicate (m + 1) (List.replicate (n + 1) 0)
  let dp := initFirstColumn m dp
  let dp := initFirstRow n dp
  let dp := fillTable s1 s2 m n dp
  dpGet dp m n

/-! ## The search loops of main -/

/-- The loop `for (const auto &x : bin_x_list)` that builds `embedded_strings`. -/
def embedAll (y : Str) (A : List Int) : List Str → Except Fault (List Str)
  | [] => Except.ok []
  | x :: xs =>
    match embed_with_array x y A with
    | Except.error f => Except.error f
    | Except.ok e =>
      match embedAll y A xs with
      | Except.error f => Except.error f
      | Except.ok es => Except.ok (e :: es)

/-- The loop over `j` for a fixed `i`: the value of `valid` when it ends; the list holds
the indices `j` still to visit. -/
def pairLoop (e : List Str) (i : Nat) : List Nat → Except Fault Bool
  | [] => Except.ok true
  | j :: rest =>
    match hamming_distance (e.getD i []) (e.getD j []) with
    | Except.error f => Except.error f
    | Except.ok h =>
      if edit_distance (e.getD i []) (e.getD j []) ≠ h then Except.ok false
      else pairLoop e i rest

/-- The loop over `i`, left as soon as `valid` is false. -/
def familyLoop (e : List Str) : List Nat → Except Fault Bool
  | [] => Except.ok true
  | i :: rest =>
    match pairLoop e i (List.range' (i + 1) (e.length - (i + 1))) with
    | Except.error f => Except.error f
    | Except.ok false => Except.ok false
    | Except.ok true => familyLoop e rest

/-- The loop `for (const auto &y : bin_y_list)` for one `A`: the `y` that is printed, if
any; the loop is left at the first `y` whose family passes. -/
def yLoop (A : List Int) (xs : List Str) : List Str → Except Fault (Option Str)
  | [] => Except.ok none
  | y :: ys =>
    match embedAll y A xs with
    | Except.error f => Except.error f
    | Except.ok e =>
      match familyLoop e (List.range e.length) with
      | Except.error f => Except.error f
      | Except.ok true => Except.ok (some y)
      | Except.ok false => yLoop A xs ys

/-- The loop `for (const auto &A : valid_A_list)`: the lines printed so far, each a pair
`(A, y)`, and the fault that ended the run, if any. -/
def searchLoop (xs ys : List Str) : List (List Int) → List (List Int × Str) →
    List (List Int × Str) × Option Fault
  | [], printed => (printed, none)
  | A :: rest, printed =>
    match yLoop A xs ys with
    | Except.error f => (printed, some f)
    | Except.ok none => searchLoop xs ys rest printed
    | Except.ok (some y) => searchLoop xs ys rest (printed ++ [(A, y)])

/-- The search of `main` as a function of the composition list, the `y` list and the `x`
list. -/
def searchDriver (As : List (List Int)) (ys xs : List Str) :
    List (List Int × Str) × Option Fault :=
  searchLoop xs ys As []

/-! ## Specification-side notions for edit distance -/

/-- One single-character edit: an insertion, a deletion or a substitution at any position. -/
inductive EditStep : Str → Str → Prop
  | insert (l r : Str) (c : Char) : EditStep (l ++ r) (l ++ c :: r)
  | delete (l r : Str) (c : Char) : EditStep (l ++ c :: r) (l ++ r)
  | substitute (l r : Str) (c d : Char) (h : c ≠ d) : EditStep (l ++ c :: r) (l ++ d :: r)

/-- A sequence of exactly `n` single-character edits leading from the first string to the
second. -/
inductive EditPath : Nat → Str → Str → Prop
  | refl (s : Str) : EditPath 0 s s
  | snoc {n : Nat} {s t u : Str} : EditPath n s t → EditStep t u → EditPath (n + 1) s u

/-- The recurrence of the table of `edit_distance`, read on two lists from their heads. -/
def lev : Str → Str → Nat
  | [], t => t.length
  | a :: s, [] => (a :: s).length
  | a :: s, b :: t =>
    if a = b then lev s t
    else 1 + min (lev s (b :: t)) (min (lev (a :: s) t) (lev s t))
termination_by s t => s.length + t.length

/-- A left-to-right alignment of two strings together with its number of edits. -/
inductive Align : Str → Str → Nat → Prop
  | nil : Align [] [] 0
  | keep (c : Char) {s t : Str} {n : Nat} : Align s t n → Align (c :: s) (c :: t) n
  | sub (c d : Char) (h : c ≠ d) {s t : Str} {n : Nat} : Align s t n → Align (c :: s) (d :: t) (n + 1)
  | del (c : Char) {s t : Str} {n : Nat} : Align s t n → Align (c :: s) t (n + 1)
  | ins (d : Char) {s t : Str} {n : Nat} : Align s t n → Align s (d :: t) (n + 1)

/-- The value the table of `edit_distance` should hold at `(a, b)`: the recurrence on the
reversed prefixes of lengths `a` and `b`. -/
def tableLev (s1 s2 : Str) (a b : Nat) : Nat := lev (s1.take a).reverse (s2.take b).reverse

/-- The shape of the table: `m + 1` rows of `n + 1` cells. -/
def DpShape (m n : Nat) (dp : List (List Nat)) : Prop :=
  dp.length = m + 1 ∧ ∀ i, i ≤ m → (dp.getD i []).length = n + 1

/-- The invariant of the filling loops: the boundary, the rows before `i` and the cells of
row `i` before column `j` hold their final values. -/
def TableInv (s1 s2 : Str) (i j : Nat) (dp : List (List Nat)) : Prop :=
  DpShape s1.length s2.length dp ∧
    ∀ a b, a ≤ s1.length → b ≤ s2.length → (a = 0 ∨ b = 0 ∨ a < i ∨ (a = i ∧ b < j)) →
      dpGet dp a b = tableLev s1 s2 a b

/-! ## Specification-side notions for the embedding -/

/-- The string the loop of `embed_with_array` appends for the entries `B`, starting at the
index `i` of `x` and the cursor `p` of `y`, when no access fails. -/
def weave (x y : Str) : List Nat → Nat → Nat → Str
  | [], _, _ => []
  | k :: rest, i, p =>
    x.getD i (Char.ofNat 0) :: ((y.drop p).take k ++ weave x y rest (i + 1) (p + k))

/-- The characters of `out` whose index, counted from `idx`, is not in `ps`, in order. -/
def keepOutside (ps : List Nat) : Nat → Str → Str
  | _, [] => []
  | idx, c :: cs =>
    if idx ∈ ps then keepOutside ps (idx + 1) cs else c :: keepOutside ps (idx + 1) cs

/-- The output position of `x[i]`: `i + A[0] + ... + A[i-1]`. -/
def xPosition (A : List Int) (i : Nat) : Nat := i + ((A.take i).sum).toNat

/-! ## Specification-side notions for the composition generator -/

/-- The extensions `v :: suf` for the values `v` of the list tried before the first one that
exceeds the budget `b`, with `suf` drawn from `next (b - v)`. -/
def extendAll (next : Int → List (List Int)) (b : Int) : List Int → List (List Int)
  | [] => []
  | v :: vs =>
    if b < v then [] else (next (b - v)).map (fun suf => v :: suf) ++ extendAll next b vs

/-- The sequences of `rem` candidate values with sum `b`, in the order of the search. -/
def completions : Nat → Int → List (List Int)
  | 0, b => if b = 0 then [[]] else []
  | rem + 1, b => extendAll (completions rem) b candidateValues

/-- The list `generateValidARec` is expected to produce for length `K` and target sum `T`. -/
def expectedCompositions (K : Nat) (T : Int) : List (List Int) :=
  (completions K T).filter (fun A => validLoop A (List.range (K - 1)))

/-- No adjacent pair `(A[i], A[i+1])` is `(0,0)`, `(0,1)` or `(1,0)`. -/
def NoForbiddenAdjacent (A : List Int) : Prop :=
  ∀ i a b, A[i]? = some a → A[i + 1]? = some b →
    ¬ (a = 0 ∧ b = 0) ∧ ¬ (a = 0 ∧ b = 1) ∧ ¬ (a = 1 ∧ b = 0)

/-- The sequences the composition generator is specified to enumerate: length `K`, entries
in `[0, 8]`, sum `T`, no forbidden adjacent pair. -/
def IsValidA (K : Nat) (T : Int) (A : List Int) : Prop :=
  A.length = K ∧ (∀ a ∈ A, 0 ≤ a ∧ a ≤ 8) ∧ A.sum = T ∧ NoForbiddenAdjacent A

/-! ## Specification-side notions for the string enumerator -/

/-- The value of a string of binary digits read with the most significant bit first. -/
def binValue (s : Str) : Nat :=
  s.foldl (fun acc c => 2 * acc + (if c = '1' then 1 else 0)) 0

/-! ## Specification-side notions for the search -/

/-- The embedded string when `embed_with_array` returns one, the empty string otherwise. -/
def embedOrEmpty (x y : Str) (A : List Int) : Str :=
  match embed_with_array x y A with
  | Except.ok e => e
  | Except.error _ => []

/-- The family `[embed_with_array(x, y, A) for x in the x list]`. -/
def family (A : List Int) (y : Str) (xs : List Str) : List Str :=
  xs.map (fun x => embedOrEmpty x y A)

/-- The two distances agree on a pair: `hamming_distance` returns the value of
`edit_distance`. -/
def DistancesAgree (a b : Str) : Prop :=
  hamming_distance a b = Except.ok (edit_distance a b)

/-- The pair `(A, y)` is a witness for the `x` list: the distances agree on every pair
`i < j` of the family. -/
def IsWitness (A : List Int) (xs : List Str) (y : Str) : Prop :=
  ∀ j, j < (family A y xs).length → ∀ i, i < j →
    DistancesAgree ((family A y xs).getD i []) ((family A y xs).getD j [])

/-- Agreement of the distances on a pair is decidable. -/
instance decDistancesAgree (a b : Str) : Decidable (DistancesAgree a b) := by
  unfold DistancesAgree
  infer_instance

/-- Being a witness is decidable. -/
instance decIsWitness (A : List Int) (xs : List Str) (y : Str) : Decidable (IsWitness A xs y) := by
  unfold IsWitness
  infer_instance

/-- The lines the search is specified to print: for each `A` in order, the first witness
`y` of the `y` list, if there is one. -/
def expectedReports (As : List (List Int)) (ys xs : List Str) : List (List Int × Str) :=
  As.filterMap (fun A => (ys.find? (fun y => decide (IsWitness A xs y))).map (fun y => (A, y)))

/-- Strict lexicographic order on integer sequences: entries are compared from left to
right by value, and a proper initial segment comes first. -/
inductive LexLt : List Int → List Int → Prop
  | nil (a : Int) (l : List Int) : LexLt [] (a :: l)
  | head {a b : Int} (l₁ l₂ : List Int) (h : a < b) : LexLt (a :: l₁) (b :: l₂)
  | tail (a : Int) {l₁ l₂ : List Int} (h : LexLt l₁ l₂) : LexLt (a :: l₁) (a :: l₂)

/-! ## Specification-side notions for Hamming distance -/

/-- The number of positions at which two strings differ, read in parallel from their
heads up to the end of the shorter one. -/
def mismatches : Str → Str → Nat
  | a :: s, b :: t => (if a ≠ b then 1 else 0) + mismatches s t
  | _, _ => 0

/-! ## Edit distance: the table against the least number of edits -/

theorem lev_nil_left (t : Str) : lev [] t = t.length := by
  rw [lev]

theorem lev_nil_right (s : Str) : lev s [] = s.length := by
  cases s with
  | nil => rw [lev]
  | cons a s => rw [lev]

theorem lev_cons_cons (a b : Char) (s t : Str) :
    lev (a :: s) (b :: t) =
      if a = b then lev s t else 1 + min (lev s (b :: t)) (min (lev (a :: s) t) (lev s t)) := by
  rw [lev]

theorem lev_lipschitz_aux (n : Nat) : ∀ s t : Str, s.length + t.length ≤ n →
    (∀ a, lev (a :: s) t ≤ lev s t + 1 ∧ lev s t ≤ lev (a :: s) t + 1) ∧
    (∀ b, lev s (b :: t) ≤ lev s t + 1 ∧ lev s t ≤ lev s (b :: t) + 1) := by
  induction n with
  | zero =>
    intro s t h
    have hs : s = [] := List.length_eq_zero.mp (by omega)
    have ht : t = [] := List.length_eq_zero.mp (by omega)
    subst hs; subst ht
    simp [lev_nil_left, lev_nil_right]
  | succ n ih =>
    intro s t h
    constructor
    · intro a
      cases t with
      | nil => simp only [lev_nil_right, List.length_cons]; omega
      | cons b t =>
        have h1 := ih s t (by simp at h; omega)
        rw [lev_cons_cons]
        by_cases hab : a = b
        · simp only [hab, if_true]
          exact ⟨(h1.2 b).2, (h1.2 b).1⟩
        · simp only [hab, if_false]
          have h2 := (h1.2 b).1
          have h3 := (h1.1 a).2
          omega
    · intro b
      cases s with
      | nil => simp only [lev_nil_left, List.length_cons]; omega
      | cons a s =>
        have h1 := ih s t (by simp at h; omega)
        rw [lev_cons_cons]
        by_cases hab : a = b
        · simp only [hab, if_true]
          exact ⟨(h1.1 b).2, (h1.1 b).1⟩
        · simp only [hab, if_false]
          have h2 := (h1.1 a).1
          have h3 := (h1.2 b).2
          omega

theorem lev_cons_left_le (a : Char) (s t : Str) : lev (a :: s) t ≤ lev s t + 1 :=
  ((lev_lipschitz_aux _ s t le_rfl).1 a).1

theorem lev_cons_right_le (b : Char) (s t : Str) : lev s (b :: t) ≤ lev s t + 1 :=
  ((lev_lipschitz_aux _ s t le_rfl).2 b).1

theorem lev_le_of_align {s t : Str} {n : Nat} (h : Align s t n) : lev s t ≤ n := by
  induction h with
  | nil => simp [lev_nil_left]
  | keep c _ ih => rw [lev_cons_cons]; simpa using ih
  | sub c d hcd _ ih =>
    rw [lev_cons_cons]; simp only [hcd, if_false]; omega
  | @del c s t n _ ih => have := lev_cons_left_le c s t; omega
  | @ins d s t n _ ih => have := lev_cons_right_le d s t; omega

theorem align_nil_left (t : Str) : Align [] t t.length := by
  induction t with
  | nil => exact Align.nil
  | cons b t ih => exact Align.ins b ih

theorem align_nil_right (s : Str) : Align s [] s.length := by
  induction s with
  | nil => exact Align.nil
  | cons a s ih => exact Align.del a ih

theorem align_lev_aux (n : Nat) : ∀ s t : Str, s.length + t.length ≤ n → Align s t (lev s t) := by
  induction n with
  | zero =>
    intro s t h
    have hs : s = [] := List.length_eq_zero.mp (by omega)
    subst hs
    rw [lev_nil_left]; exact align_nil_left t
  | succ n ih =>
    intro s t h
    cases s with
    | nil => rw [lev_nil_left]; exact align_nil_left t
    | cons a s =>
      cases t with
      | nil => rw [lev_nil_right]; exact align_nil_right _
      | cons b t =>
        simp only [List.length_cons] at h
        rw [lev_cons_cons]
        by_cases hab : a = b
        · subst hab
          simp only [if_true]
          exact Align.keep a (ih s t (by omega))
        · simp only [hab, if_false]
          have e1 := ih s (b :: t) (by simp only [List.length_cons]; omega)
          have e2 := ih (a :: s) t (by simp only [List.length_cons]; omega)
          have e3 := ih s t (by omega)
          rcases Nat.le_total (lev s (b :: t)) (min (lev (a :: s) t) (lev s t)) with h1 | h1
          · rw [Nat.min_eq_left h1, Nat.add_comm]; exact Align.del a e1
          · rw [Nat.min_eq_right h1]
            rcases Nat.le_total (lev (a :: s) t) (lev s t) with h2 | h2
            · rw [Nat.min_eq_left h2, Nat.add_comm]; exact Align.ins b e2
            · rw [Nat.min_eq_right h2, Nat.add_comm]; exact Align.sub a b hab e3

theorem align_lev (s t : Str) : Align s t (lev s t) := align_lev_aux _ s t le_rfl

theorem align_refl (s : Str) : Align s s 0 := by
  induction s with
  | nil => exact Align.nil
  | cons a s ih => exact Align.keep a ih


theorem editStep_cons (c : Char) {t u : Str} (h : EditStep t u) : EditStep (c :: t) (c :: u) := by
  cases h with
  | insert l r d => exact EditStep.insert (c :: l) r d
  | delete l r d => exact EditStep.delete (c :: l) r d
  | substitute l r d e hde => exact EditStep.substitute (c :: l) r d e hde

theorem editStep_cases {t u : Str} (h : EditStep t u) :
    (∃ c, u = c :: t) ∨ (∃ c, t = c :: u) ∨
    (∃ c d r, c ≠ d ∧ t = c :: r ∧ u = d :: r) ∨
    (∃ c t' u', t = c :: t' ∧ u = c :: u' ∧ EditStep t' u') := by
  cases h with
  | insert l r d =>
    cases l with
    | nil => exact Or.inl ⟨d, rfl⟩
    | cons a l => exact Or.inr (Or.inr (Or.inr ⟨a, _, _, rfl, rfl, EditStep.insert l r d⟩))
  | delete l r d =>
    cases l with
    | nil => exact Or.inr (Or.inl ⟨d, rfl⟩)
    | cons a l => exact Or.inr (Or.inr (Or.inr ⟨a, _, _, rfl, rfl, EditStep.delete l r d⟩))
  | substitute l r d e hde =>
    cases l with
    | nil => exact Or.inr (Or.inr (Or.inl ⟨d, e, r, hde, rfl, rfl⟩))
    | cons a l =>
      exact Or.inr (Or.inr (Or.inr ⟨a, _, _, rfl, rfl, EditStep.substitute l r d e hde⟩))

theorem align_step {s t : Str} {n : Nat} (h : Align s t n) :
    ∀ u, EditStep t u → ∃ m, m ≤ n + 1 ∧ Align s u m := by
  induction h with
  | nil =>
    intro u hu
    rcases editStep_cases hu with ⟨c, rfl⟩ | ⟨c, hc⟩ | ⟨c, d, r, _, hc, _⟩ | ⟨c, t', u', hc, _, _⟩
    · exact ⟨1, le_rfl, Align.ins c Align.nil⟩
    · cases hc
    · cases hc
    · cases hc
  | @keep c s t n hst ih =>
    intro u hu
    rcases editStep_cases hu with ⟨e, rfl⟩ | ⟨e, he⟩ | ⟨e, d, r, hed, he, rfl⟩ | ⟨e, t', u', he, rfl, hs⟩
    · exact ⟨n + 1, le_rfl, Align.ins e (Align.keep c hst)⟩
    · cases he
      exact ⟨n + 1, le_rfl, Align.del c hst⟩
    · cases he
      exact ⟨n + 1, le_rfl, Align.sub _ d hed hst⟩
    · cases he
      obtain ⟨m, hm, hal⟩ := ih u' hs
      exact ⟨m, hm, Align.keep _ hal⟩
  | @sub c d hcd s t n hst ih =>
    intro u hu
    rcases editStep_cases hu with ⟨e, rfl⟩ | ⟨e, he⟩ | ⟨e, d', r, hed, he, rfl⟩ | ⟨e, t', u', he, rfl, hs⟩
    · exact ⟨n + 2, le_rfl, Align.ins e (Align.sub c d hcd hst)⟩
    · cases he
      exact ⟨n + 1, by omega, Align.del c hst⟩
    · cases he
      by_cases hcd' : c = d'
      · subst hcd'
        exact ⟨n, by omega, Align.keep c hst⟩
      · exact ⟨n + 1, by omega, Align.sub c d' hcd' hst⟩
    · cases he
      obtain ⟨m, hm, hal⟩ := ih u' hs
      exact ⟨m + 1, by omega, Align.sub c _ hcd hal⟩
  | @del c s t n hst ih =>
    intro u hu
    obtain ⟨m, hm, hal⟩ := ih u hu
    exact ⟨m + 1, by omega, Align.del c hal⟩
  | @ins d s t n hst ih =>
    intro u hu
    rcases editStep_cases hu with ⟨e, rfl⟩ | ⟨e, he⟩ | ⟨e, d', r, hed, he, rfl⟩ | ⟨e, t', u', he, rfl, hs⟩
    · exact ⟨n + 2, le_rfl, Align.ins e (Align.ins d hst)⟩
    · cases he
      exact ⟨n, by omega, hst⟩
    · cases he
      exact ⟨n + 1, by omega, Align.ins d' hst⟩
    · cases he
      obtain ⟨m, hm, hal⟩ := ih u' hs
      exact ⟨m + 1, by omega, Align.ins _ hal⟩

theorem align_of_editPath {n : Nat} {s t : Str} (h : EditPath n s t) :
    ∃ m, m ≤ n ∧ Align s t m := by
  induction h with
  | refl s => exact ⟨0, le_rfl, align_refl s⟩
  | snoc _ hstep ih =>
    obtain ⟨m, hm, hal⟩ := ih
    obtain ⟨m', hm', hal'⟩ := align_step hal _ hstep
    exact ⟨m', by omega, hal'⟩

theorem editPath_cons (c : Char) {n : Nat} {s t : Str} (h : EditPath n s t) :
    EditPath n (c :: s) (c :: t) := by
  induction h with
  | refl s => exact EditPath.refl _
  | snoc _ hstep ih => exact EditPath.snoc ih (editStep_cons c hstep)

theorem editPath_of_align {n : Nat} {s t : Str} (h : Align s t n) : EditPath n s t := by
  induction h with
  | nil => exact EditPath.refl _
  | keep c _ ih => exact editPath_cons c ih
  | sub c d hcd _ ih =>
    exact EditPath.snoc (editPath_cons c ih) (EditStep.substitute [] _ c d hcd)
  | del c _ ih => exact EditPath.snoc (editPath_cons c ih) (EditStep.delete [] _ c)
  | ins d _ ih => exact EditPath.snoc ih (EditStep.insert [] _ d)

theorem editStep_reverse {t u : Str} (h : EditStep t u) : EditStep t.reverse u.reverse := by
  cases h with
  | insert l r d =>
    have := EditStep.insert r.reverse l.reverse d
    simpa using this
  | delete l r d =>
    have := EditStep.delete r.reverse l.reverse d
    simpa using this
  | substitute l r d e hde =>
    have := EditStep.substitute r.reverse l.reverse d e hde
    simpa using this

theorem editPath_reverse {n : Nat} {s t : Str} (h : EditPath n s t) :
    EditPath n s.reverse t.reverse := by
  induction h with
  | refl s => exact EditPath.refl _
  | snoc _ hstep ih => exact EditPath.snoc ih (editStep_reverse hstep)

/-- The recursion `lev` computes the least number of single-character edits. -/
theorem lev_reverse_editPath (s t : Str) : EditPath (lev s.reverse t.reverse) s t := by
  have := editPath_reverse (editPath_of_align (align_lev s.reverse t.reverse))
  simpa using this

theorem lev_reverse_le_of_editPath {n : Nat} {s t : Str} (h : EditPath n s t) :
    lev s.reverse t.reverse ≤ n := by
  obtain ⟨m, hm, hal⟩ := align_of_editPath (editPath_reverse h)
  exact le_trans (lev_le_of_align hal) hm


theorem getD_set_row (dp : List (List Nat)) (i a : Nat) (x : List Nat) :
    (dp.set i x).getD a [] = if a = i ∧ i < dp.length then x else dp.getD a [] := by
  simp only [List.getD_eq_getElem?_getD, List.getElem?_set]
  by_cases h : i = a
  · subst h
    by_cases h2 : i < dp.length
    · simp [h2]
    · have h3 : dp[i]? = none := List.getElem?_eq_none (by omega)
      simp [h2, h3]
  · have h' : ¬ a = i := fun e => h e.symm
    simp [h, h']

theorem dpSet_shape {m n : Nat} {dp : List (List Nat)} (h : DpShape m n dp) (i j v : Nat) :
    DpShape m n (dpSet dp i j v) := by
  refine ⟨by simp [dpSet, h.1], fun a ha => ?_⟩
  unfold dpSet
  rw [getD_set_row]
  split
  · next hc => rw [List.length_set, ← hc.1]; exact h.2 a ha
  · exact h.2 a ha

theorem dpGet_dpSet_same {m n : Nat} {dp : List (List Nat)} (h : DpShape m n dp)
    {i j : Nat} (hi : i ≤ m) (hj : j ≤ n) (v : Nat) : dpGet (dpSet dp i j v) i j = v := by
  unfold dpGet dpSet
  rw [getD_set_row]
  have h1 : i < dp.length := by rw [h.1]; omega
  have h2 : j < (dp.getD i []).length := by rw [h.2 i hi]; omega
  simp only [List.getD_eq_getElem?_getD, List.getElem?_eq_getElem h1, Option.getD_some] at h2
  simp [h1, List.getD_eq_getElem?_getD, List.getElem?_set, h2]

theorem dpGet_dpSet_ne (dp : List (List Nat)) {i j a b : Nat} (h : ¬ (a = i ∧ b = j)) (v : Nat) :
    dpGet (dpSet dp i j v) a b = dpGet dp a b := by
  unfold dpGet dpSet
  rw [getD_set_row]
  split
  · next hc =>
    have hb : ¬ j = b := fun e => h ⟨hc.1, e.symm⟩
    rw [hc.1]
    simp [List.getD_eq_getElem?_getD, List.getElem?_set, hb]
  · rfl

theorem foldl_range'_inv {σ : Type} (f : σ → Nat → σ) (P : Nat → σ → Prop) :
    ∀ (n s : Nat) (init : σ), P s init →
      (∀ k st, s ≤ k → k < s + n → P k st → P (k + 1) (f st k)) →
      P (s + n) ((List.range' s n).foldl f init) := by
  intro n
  induction n with
  | zero => intro s init h0 _; simpa using h0
  | succ n ih =>
    intro s init h0 hstep
    rw [List.range'_succ, List.foldl_cons]
    have := ih (s + 1) (f init s) (hstep s init le_rfl (by omega) h0)
      (fun k st hk1 hk2 hP => hstep k st (by omega) (by omega) hP)
    have e : s + 1 + n = s + (n + 1) := by omega
    rw [e] at this
    exact this


theorem take_succ_reverse (s : Str) {i : Nat} (h : i < s.length) :
    (s.take (i + 1)).reverse = s.getD i (Char.ofNat 0) :: (s.take i).reverse := by
  rw [List.take_succ, List.getD_eq_getElem?_getD, List.getElem?_eq_getElem h]
  simp

theorem tableLev_zero_left (s1 s2 : Str) (b : Nat) (hb : b ≤ s2.length) :
    tableLev s1 s2 0 b = b := by
  simp [tableLev, lev_nil_left, hb]

theorem tableLev_zero_right (s1 s2 : Str) (a : Nat) (ha : a ≤ s1.length) :
    tableLev s1 s2 a 0 = a := by
  simp [tableLev, lev_nil_right, ha]

theorem tableLev_succ (s1 s2 : Str) {i j : Nat} (hi : i < s1.length) (hj : j < s2.length) :
    tableLev s1 s2 (i + 1) (j + 1) =
      if s1.getD i (Char.ofNat 0) = s2.getD j (Char.ofNat 0) then tableLev s1 s2 i j
      else 1 + min (tableLev s1 s2 i (j + 1))
        (min (tableLev s1 s2 (i + 1) j) (tableLev s1 s2 i j)) := by
  unfold tableLev
  rw [take_succ_reverse s1 hi, take_succ_reverse s2 hj, lev_cons_cons]

theorem initFirstColumn_spec (m n : Nat) (dp : List (List Nat)) (h : DpShape m n dp) :
    DpShape m n (initFirstColumn m dp) ∧ ∀ a, a ≤ m → dpGet (initFirstColumn m dp) a 0 = a := by
  have := foldl_range'_inv (fun dp i => dpSet dp i 0 i)
    (fun k dp => DpShape m n dp ∧ ∀ a, a < k → dpGet dp a 0 = a) (m + 1) 0 dp
    ⟨h, fun a ha => by omega⟩
    (fun k st _ hk hP => ⟨dpSet_shape hP.1 _ _ _, fun a ha => by
      by_cases hak : a = k
      · subst hak
        exact dpGet_dpSet_same hP.1 (by omega) (by omega) _
      · rw [dpGet_dpSet_ne _ (fun hc => hak hc.1)]
        exact hP.2 a (by omega)⟩)
  exact ⟨this.1, fun a ha => this.2 a (by omega)⟩

theorem initFirstRow_spec (m n : Nat) (dp : List (List Nat)) (h : DpShape m n dp)
    (hcol : ∀ a, a ≤ m → dpGet dp a 0 = a) :
    DpShape m n (initFirstRow n dp) ∧ (∀ a, a ≤ m → dpGet (initFirstRow n dp) a 0 = a) ∧
      ∀ b, b ≤ n → dpGet (initFirstRow n dp) 0 b = b := by
  have := foldl_range'_inv (fun dp j => dpSet dp 0 j j)
    (fun k dp => DpShape m n dp ∧ (∀ a, a ≤ m → dpGet dp a 0 = a) ∧
      ∀ b, b < k → dpGet dp 0 b = b) (n + 1) 0 dp
    ⟨h, hcol, fun b hb => by omega⟩
    (fun k st _ hk hP => ⟨dpSet_shape hP.1 _ _ _, fun a ha => by
        by_cases hak : a = 0 ∧ 0 = k
        · obtain ⟨rfl, rfl⟩ := hak
          exact dpGet_dpSet_same hP.1 (by omega) (by omega) _
        · rw [dpGet_dpSet_ne _ hak]
          exact hP.2.1 a ha,
      fun b hb => by
        by_cases hbk : b = k
        · subst hbk
          exact dpGet_dpSet_same hP.1 (by omega) (by omega) _
        · rw [dpGet_dpSet_ne _ (fun hc => hbk hc.2)]
          exact hP.2.2 b (by omega)⟩)
  exact ⟨this.1, this.2.1, fun b hb => this.2.2 b (by omega)⟩


theorem fillCell_eq (s1 s2 : Str) (dp : List (List Nat)) (i j : Nat) :
    fillCell s1 s2 dp i j = dpSet dp i j
      (if s1.getD (i - 1) (Char.ofNat 0) = s2.getD (j - 1) (Char.ofNat 0) then dpGet dp (i - 1) (j - 1)
       else 1 + min (dpGet dp (i - 1) j) (min (dpGet dp i (j - 1)) (dpGet dp (i - 1) (j - 1)))) := by
  unfold fillCell
  split <;> rfl

theorem fillCell_inv (s1 s2 : Str) (dp : List (List Nat)) {i j : Nat}
    (hi1 : 1 ≤ i) (hi : i ≤ s1.length) (hj1 : 1 ≤ j) (hj : j ≤ s2.length)
    (h : TableInv s1 s2 i j dp) : TableInv s1 s2 i (j + 1) (fillCell s1 s2 dp i j) := by
  obtain ⟨i, rfl⟩ : ∃ i', i = i' + 1 := ⟨i - 1, by omega⟩
  obtain ⟨j, rfl⟩ : ∃ j', j = j' + 1 := ⟨j - 1, by omega⟩
  rw [fillCell_eq]
  refine ⟨dpSet_shape h.1 _ _ _, fun a b ha hb hab => ?_⟩
  by_cases hc : a = i + 1 ∧ b = j + 1
  · obtain ⟨rfl, rfl⟩ := hc
    rw [dpGet_dpSet_same h.1 hi hj, tableLev_succ s1 s2 (by omega) (by omega)]
    simp only [Nat.add_sub_cancel]
    rw [h.2 i j (by omega) (by omega) (by omega), h.2 i (j + 1) (by omega) (by omega) (by omega),
      h.2 (i + 1) j (by omega) (by omega) (by omega)]
  · rw [dpGet_dpSet_ne _ hc]
    exact h.2 a b ha hb (by omega)

theorem fillRow_inv (s1 s2 : Str) (dp : List (List Nat)) {i : Nat}
    (hi1 : 1 ≤ i) (hi : i ≤ s1.length) (h : TableInv s1 s2 i 1 dp) :
    TableInv s1 s2 (i + 1) 1 (fillRow s1 s2 s2.length dp i) := by
  have := foldl_range'_inv (fun dp j => fillCell s1 s2 dp i j)
    (fun k dp => TableInv s1 s2 i k dp) s2.length 1 dp h
    (fun k st hk1 hk2 hP => fillCell_inv s1 s2 st hi1 hi hk1 (by omega) hP)
  refine ⟨this.1, fun a b ha hb hab => this.2 a b ha hb ?_⟩
  omega

theorem fillTable_inv (s1 s2 : Str) (dp : List (List Nat)) (h : TableInv s1 s2 1 1 dp) :
    TableInv s1 s2 (1 + s1.length) 1 (fillTable s1 s2 s1.length s2.length dp) :=
  foldl_range'_inv (fun dp i => fillRow s1 s2 s2.length dp i)
    (fun k dp => TableInv s1 s2 k 1 dp) s1.length 1 dp h
    (fun _ st hk1 hk2 hP => fillRow_inv s1 s2 st hk1 (by omega) hP)

theorem replicate_shape (m n : Nat) : DpShape m n (List.replicate (m + 1) (List.replicate (n + 1) 0)) := by
  refine ⟨by simp, fun i hi => ?_⟩
  have : i < m + 1 := by omega
  simp [List.getD_eq_getElem?_getD, List.getElem?_replicate, this]

/-- The table computation returns the recursion `lev` on the reversed arguments. -/
theorem edit_distance_eq_lev (s1 s2 : Str) :
    edit_distance s1 s2 = lev s1.reverse s2.reverse := by
  have h0 := replicate_shape s1.length s2.length
  have h1 := initFirstColumn_spec _ _ _ h0
  have h2 := initFirstRow_spec _ _ _ h1.1 h1.2
  have h3 := fillTable_inv s1 s2 _ (show TableInv s1 s2 1 1 _ from
    ⟨h2.1, fun a b ha hb hab => by
      rcases Nat.eq_zero_or_pos a with rfl | hapos
      · rw [h2.2.2 b hb, tableLev_zero_left s1 s2 b hb]
      · have hb0 : b = 0 := by omega
        subst hb0
        rw [h2.2.1 a ha, tableLev_zero_right s1 s2 a ha]⟩)
  have := h3.2 s1.length s2.length le_rfl le_rfl (by omega)
  unfold edit_distance
  simp only
  rw [this]
  simp [tableLev]

theorem edit_distance_editPath (s1 s2 : Str) : EditPath (edit_distance s1 s2) s1 s2 := by
  rw [edit_distance_eq_lev]; exact lev_reverse_editPath s1 s2

theorem edit_distance_le_of_editPath {n : Nat} {s1 s2 : Str} (h : EditPath n s1 s2) :
    edit_distance s1 s2 ≤ n := by
  rw [edit_distance_eq_lev]; exact lev_reverse_le_of_editPath h


/-! ## Edit distance: metric properties -/

theorem editPath_trans {n m : Nat} {s t u : Str} (h1 : EditPath n s t) (h2 : EditPath m t u) :
    EditPath (n + m) s u := by
  induction h2 with
  | refl _ => exact h1
  | snoc _ hstep ih => exact EditPath.snoc (ih h1) hstep

theorem editStep_symm {s t : Str} (h : EditStep s t) : EditStep t s := by
  cases h with
  | insert l r c => exact EditStep.delete l r c
  | delete l r c => exact EditStep.insert l r c
  | substitute l r c d hcd => exact EditStep.substitute l r d c (fun e => hcd e.symm)

theorem editPath_symm {n : Nat} {s t : Str} (h : EditPath n s t) : EditPath n t s := by
  induction h with
  | refl s => exact EditPath.refl s
  | @snoc n s t u _ hstep ih =>
    have h1 : EditPath (0 + 1) u t := EditPath.snoc (EditPath.refl u) (editStep_symm hstep)
    have h2 := editPath_trans h1 ih
    have e : 0 + 1 + n = n + 1 := by omega
    rw [e] at h2
    exact h2

theorem editStep_length {t u : Str} (h : EditStep t u) :
    t.length ≤ u.length + 1 ∧ u.length ≤ t.length + 1 := by
  cases h with
  | insert l r c => simp only [List.length_append, List.length_cons]; omega
  | delete l r c => simp only [List.length_append, List.length_cons]; omega
  | substitute l r c d _ => simp only [List.length_append, List.length_cons]; omega

theorem editPath_length {n : Nat} {s t : Str} (h : EditPath n s t) :
    s.length ≤ t.length + n ∧ t.length ≤ s.length + n := by
  induction h with
  | refl s => simp
  | snoc _ hstep ih =>
    have := editStep_length hstep
    omega

theorem edit_distance_triangle_aux (s t u : Str) :
    edit_distance s u ≤ edit_distance s t + edit_distance t u :=
  edit_distance_le_of_editPath
    (editPath_trans (edit_distance_editPath s t) (edit_distance_editPath t u))

theorem edit_distance_comm (s t : Str) : edit_distance s t = edit_distance t s :=
  Nat.le_antisymm
    (edit_distance_le_of_editPath (editPath_symm (edit_distance_editPath t s)))
    (edit_distance_le_of_editPath (editPath_symm (edit_distance_editPath s t)))

theorem edit_distance_length_bounds (s t : Str) :
    s.length ≤ t.length + edit_distance s t ∧ t.length ≤ s.length + edit_distance s t :=
  editPath_length (edit_distance_editPath s t)

/-! ## The embedding -/

theorem charAt_of_lt (x : Str) {i : Nat} (h : i < x.length) :
    charAt x i = Except.ok (x.getD i (Char.ofNat 0)) := by
  simp [charAt, h]

theorem substr_of_le (y : Str) (p k : Nat) (h : p ≤ y.length) :
    substr y (p : Int) (k : Int) = Except.ok ((y.drop p).take k) := by
  unfold substr
  have h1 : ¬ ((p : Int) < 0 ∨ (y.length : Int) < (p : Int)) := by omega
  have h2 : ¬ ((k : Int) < 0) := by omega
  simp only [h1, h2, if_false, Int.toNat_ofNat]

theorem embedLoop_eq_weave (x y : Str) : ∀ (B : List Nat) (i p : Nat) (res : Str),
    i + B.length ≤ x.length → p + B.sum ≤ y.length →
    embedLoop x y (B.map (fun k : Nat => (k : Int))) i (p : Int) res = Except.ok (res ++ weave x y B i p) := by
  intro B
  induction B with
  | nil => intro i p res _ _; simp [embedLoop, weave]
  | cons k rest ih =>
    intro i p res hi hp
    simp only [List.length_cons, List.sum_cons] at hi hp
    simp only [List.map_cons, embedLoop]
    rw [charAt_of_lt x (by omega), substr_of_le y p k (by omega)]
    simp only
    have e : (p : Int) + (k : Int) = ((p + k : Nat) : Int) := by push_cast; rfl
    rw [e, ih (i + 1) (p + k) _ (by omega) (by omega)]
    simp [weave]

theorem weave_length (x y : Str) : ∀ (B : List Nat) (i p : Nat), p + B.sum ≤ y.length →
    (weave x y B i p).length = B.length + B.sum := by
  intro B
  induction B with
  | nil => intro i p _; simp [weave]
  | cons k rest ih =>
    intro i p hp
    simp only [List.sum_cons] at hp
    simp only [weave, List.length_cons, List.length_append, List.length_take, List.length_drop,
      List.sum_cons, ih (i + 1) (p + k) (by omega)]
    omega

theorem weave_getElem (x y : Str) : ∀ (B : List Nat) (i p j : Nat), p + B.sum ≤ y.length →
    j < B.length →
    (weave x y B i p)[j + (B.take j).sum]? = some (x.getD (i + j) (Char.ofNat 0)) := by
  intro B
  induction B with
  | nil => intro i p j _ hj; simp at hj
  | cons k rest ih =>
    intro i p j hp hj
    simp only [List.sum_cons] at hp
    cases j with
    | zero => simp [weave]
    | succ j =>
      simp only [List.length_cons] at hj
      have hlen : ((y.drop p).take k).length = k := by
        simp only [List.length_take, List.length_drop]; omega
      have e : j + 1 + (List.take (j + 1) (k :: rest)).sum
          = (k + (j + (rest.take j).sum)) + 1 := by
        simp only [List.take_succ_cons, List.sum_cons]; omega
      rw [e, weave, List.getElem?_cons_succ, List.getElem?_append_right (by omega), hlen,
        Nat.add_sub_cancel_left, ih (i + 1) (p + k) j (by omega) (by omega)]
      congr 2
      omega

theorem keepOutside_append (ps : List Nat) : ∀ (a b : Str) (idx : Nat),
    keepOutside ps idx (a ++ b) = keepOutside ps idx a ++ keepOutside ps (idx + a.length) b := by
  intro a
  induction a with
  | nil => intro b idx; simp [keepOutside]
  | cons c cs ih =>
    intro b idx
    have e : idx + 1 + cs.length = idx + (cs.length + 1) := by omega
    rw [List.cons_append, keepOutside, keepOutside, ih b (idx + 1), List.length_cons, e]
    split <;> simp

theorem keepOutside_of_forall_not_mem (ps : List Nat) : ∀ (a : Str) (idx : Nat),
    (∀ t, idx ≤ t → t < idx + a.length → t ∉ ps) → keepOutside ps idx a = a := by
  intro a
  induction a with
  | nil => intro idx _; simp [keepOutside]
  | cons c cs ih =>
    intro idx h
    simp only [List.length_cons] at h
    have h0 : idx ∉ ps := h idx le_rfl (by omega)
    simp only [keepOutside, h0, if_false]
    rw [ih (idx + 1) (fun t ht1 ht2 => h t (by omega) (by omega))]

theorem sum_take_succ_cons_ge (k : Nat) (rest : List Nat) (j : Nat) :
    (List.take (j + 1) (k :: rest)).sum = k + (rest.take j).sum := by
  simp

theorem weave_keepOutside (x y : Str) (ps : List Nat) : ∀ (B : List Nat) (i p off : Nat),
    p + B.sum ≤ y.length →
    (∀ t, off ≤ t → t < off + (B.length + B.sum) →
      (t ∈ ps ↔ ∃ j, j < B.length ∧ t = off + (j + (B.take j).sum))) →
    keepOutside ps off (weave x y B i p) = (y.drop p).take B.sum := by
  intro B
  induction B with
  | nil => intro i p off _ _; simp [weave, keepOutside]
  | cons k rest ih =>
    intro i p off hp hps
    simp only [List.sum_cons] at hp
    simp only [List.length_cons, List.sum_cons] at hps
    have hlen : ((y.drop p).take k).length = k := by
      simp only [List.length_take, List.length_drop]; omega
    have h0 : off ∈ ps := (hps off le_rfl (by omega)).2 ⟨0, by omega, by simp⟩
    rw [weave, keepOutside, if_pos h0, keepOutside_append, hlen]
    rw [keepOutside_of_forall_not_mem ps _ (off + 1)]
    · rw [ih (i + 1) (p + k) (off + 1 + k) (by omega)]
      · rw [List.sum_cons, List.take_add, List.drop_drop]
      · intro t ht1 ht2
        rw [hps t (by omega) (by omega)]
        constructor
        · rintro ⟨j, hj, rfl⟩
          cases j with
          | zero => simp only [List.take_zero, List.sum_nil] at ht1 ht2; omega
          | succ j =>
            refine ⟨j, by omega, ?_⟩
            rw [sum_take_succ_cons_ge]; omega
        · rintro ⟨j, hj, rfl⟩
          refine ⟨j + 1, by omega, ?_⟩
          rw [sum_take_succ_cons_ge]; omega
    · intro t ht1 ht2 hmem
      rw [hlen] at ht2
      obtain ⟨j, hj, rfl⟩ := (hps t (by omega) (by omega)).1 hmem
      cases j with
      | zero => simp only [List.take_zero, List.sum_nil] at ht1 ht2; omega
      | succ j => rw [sum_take_succ_cons_ge] at ht2; omega

theorem map_toNat_cast (A : List Int) (hA : ∀ a ∈ A, 0 ≤ a) :
    (A.map Int.toNat).map (fun k : Nat => (k : Int)) = A := by
  induction A with
  | nil => rfl
  | cons a rest ih =>
    have h0 : 0 ≤ a := hA a (List.mem_cons_self _ _)
    simp only [List.map_cons, Int.toNat_of_nonneg h0]
    rw [ih (fun b hb => hA b (List.mem_cons_of_mem _ hb))]

theorem sum_map_toNat (A : List Int) (hA : ∀ a ∈ A, 0 ≤ a) :
    ((A.map Int.toNat).sum : Int) = A.sum := by
  induction A with
  | nil => rfl
  | cons a rest ih =>
    have h0 : 0 ≤ a := hA a (List.mem_cons_self _ _)
    simp only [List.map_cons, List.sum_cons, Nat.cast_add, Int.toNat_of_nonneg h0]
    rw [ih (fun b hb => hA b (List.mem_cons_of_mem _ hb))]

theorem xPosition_eq (A : List Int) (hA : ∀ a ∈ A, 0 ≤ a) (i : Nat) :
    xPosition A i = i + ((A.map Int.toNat).take i).sum := by
  unfold xPosition
  have h := sum_map_toNat (A.take i) (fun a ha => hA a (List.mem_of_mem_take ha))
  rw [← List.map_take, ← h, Int.toNat_ofNat]

theorem getLast?_of_length (x : Str) (n : Nat) (hx : x.length = n + 1) :
    x.getLast? = some (x.getD n (Char.ofNat 0)) := by
  have hn : n < x.length := by omega
  rw [List.getLast?_eq_getElem?, hx, Nat.add_sub_cancel, List.getD_eq_getElem?_getD,
    List.getElem?_eq_getElem hn]
  rfl

/-- Under its precondition `embed_with_array` returns the woven string followed by the last
character of `x`. -/
theorem embed_eq_weave (x y : Str) (A : List Int) (hA : ∀ a ∈ A, 0 ≤ a)
    (hsum : A.sum = (y.length : Int)) (hx : x.length = A.length + 1) :
    embed_with_array x y A =
      Except.ok (weave x y (A.map Int.toNat) 0 0 ++ [x.getD A.length (Char.ofNat 0)]) := by
  have hB : ((A.map Int.toNat).sum : Int) = (y.length : Int) := by
    rw [sum_map_toNat A hA, hsum]
  have hB' : (A.map Int.toNat).sum = y.length := by exact_mod_cast hB
  have h := embedLoop_eq_weave x y (A.map Int.toNat) 0 0 []
    (by simp only [List.length_map]; omega) (by omega)
  rw [map_toNat_cast A hA] at h
  unfold embed_with_array
  simp only [Nat.cast_zero] at h
  rw [h, getLast?_of_length x A.length hx]
  simp

theorem embed_length (x y : Str) (A : List Int) (hA : ∀ a ∈ A, 0 ≤ a)
    (hsum : A.sum = (y.length : Int)) (hx : x.length = A.length + 1) :
    (weave x y (A.map Int.toNat) 0 0 ++ [x.getD A.length (Char.ofNat 0)]).length
      = x.length + y.length := by
  have hB : ((A.map Int.toNat).sum : Int) = (y.length : Int) := by
    rw [sum_map_toNat A hA, hsum]
  have hB' : (A.map Int.toNat).sum = y.length := by exact_mod_cast hB
  rw [List.length_append, weave_length x y _ 0 0 (by omega), List.length_map, hB', hx]
  simp only [List.length_singleton]
  omega

theorem embedLoop_length_indep (y : Str) : ∀ (A : List Int) (x1 x2 : Str) (i1 i2 : Nat)
    (p : Int) (r1 r2 o1 o2 : Str),
    embedLoop x1 y A i1 p r1 = Except.ok o1 → embedLoop x2 y A i2 p r2 = Except.ok o2 →
    r1.length = r2.length → o1.length = o2.length := by
  intro A
  induction A with
  | nil =>
    intro x1 x2 i1 i2 p r1 r2 o1 o2 h1 h2 hr
    simp only [embedLoop, Except.ok.injEq] at h1 h2
    rw [← h1, ← h2, hr]
  | cons k rest ih =>
    intro x1 x2 i1 i2 p r1 r2 o1 o2 h1 h2 hr
    simp only [embedLoop] at h1 h2
    cases hc1 : charAt x1 i1 with
    | error f => rw [hc1] at h1; cases h1
    | ok c1 =>
      cases hc2 : charAt x2 i2 with
      | error f => rw [hc2] at h2; cases h2
      | ok c2 =>
        cases hs : substr y p k with
        | error f => rw [hc1, hs] at h1; cases h1
        | ok piece =>
          rw [hc1, hs] at h1
          rw [hc2, hs] at h2
          exact ih x1 x2 _ _ _ _ _ o1 o2 h1 h2 (by simp [hr])

theorem embed_length_indep (y : Str) (A : List Int) (x1 x2 e1 e2 : Str)
    (h1 : embed_with_array x1 y A = Except.ok e1) (h2 : embed_with_array x2 y A = Except.ok e2) :
    e1.length = e2.length := by
  unfold embed_with_array at h1 h2
  cases hl1 : embedLoop x1 y A 0 0 [] with
  | error f => rw [hl1] at h1; cases h1
  | ok o1 =>
    cases hl2 : embedLoop x2 y A 0 0 [] with
    | error f => rw [hl2] at h2; cases h2
    | ok o2 =>
      rw [hl1] at h1
      rw [hl2] at h2
      have hlen := embedLoop_length_indep y A x1 x2 0 0 0 [] [] o1 o2 hl1 hl2 rfl
      cases hb1 : x1.getLast? with
      | none => rw [hb1] at h1; cases h1
      | some c1 =>
        cases hb2 : x2.getLast? with
        | none => rw [hb2] at h2; cases h2
        | some c2 =>
          rw [hb1] at h1
          rw [hb2] at h2
          simp only [Except.ok.injEq] at h1 h2
          rw [← h1, ← h2]
          simp [hlen]

theorem hamming_distance_ok_of_length_eq (s1 s2 : Str) (h : s1.length = s2.length) :
    ∃ d, hamming_distance s1 s2 = Except.ok d := by
  unfold hamming_distance
  simp [h]

theorem sum_take_le (B : List Nat) : ∀ i, (B.take i).sum ≤ B.sum := by
  induction B with
  | nil => intro i; simp
  | cons k rest ih =>
    intro i
    cases i with
    | zero => simp
    | succ i => simp only [List.take_succ_cons, List.sum_cons]; have := ih i; omega

/-! ## The composition generator -/

theorem mem_candidateValues (v : Int) : v ∈ candidateValues ↔ 0 ≤ v ∧ v ≤ 8 := by
  unfold candidateValues
  simp only [List.mem_cons, List.mem_singleton, List.not_mem_nil, or_false]
  omega

theorem candidateValues_sorted : candidateValues.Pairwise (fun a b => a ≤ b) := by
  unfold candidateValues
  decide

theorem mem_extendAll_imp (next : Int → List (List Int)) (b : Int) : ∀ (vs : List Int)
    (A : List Int), A ∈ extendAll next b vs →
    ∃ v suf, A = v :: suf ∧ v ∈ vs ∧ v ≤ b ∧ suf ∈ next (b - v) := by
  intro vs
  induction vs with
  | nil => intro A h; simp [extendAll] at h
  | cons w vs ih =>
    intro A h
    unfold extendAll at h
    split at h
    · simp at h
    · next hw =>
      rcases List.mem_append.mp h with h1 | h1
      · obtain ⟨suf, hsuf, rfl⟩ := List.mem_map.mp h1
        exact ⟨w, suf, rfl, List.mem_cons_self _ _, by omega, hsuf⟩
      · obtain ⟨v, suf, hA, hv, hvb, hsuf⟩ := ih A h1
        exact ⟨v, suf, hA, List.mem_cons_of_mem _ hv, hvb, hsuf⟩

theorem mem_extendAll_of (next : Int → List (List Int)) (b : Int) : ∀ (vs : List Int),
    vs.Pairwise (fun a b => a ≤ b) → ∀ (v : Int) (suf : List Int), v ∈ vs → v ≤ b →
    suf ∈ next (b - v) → v :: suf ∈ extendAll next b vs := by
  intro vs
  induction vs with
  | nil => intro _ v suf hv; simp at hv
  | cons w vs ih =>
    intro hs v suf hv hvb hsuf
    rw [List.pairwise_cons] at hs
    have hwv : w ≤ v := by
      rcases List.mem_cons.mp hv with rfl | hv'
      · exact le_rfl
      · exact hs.1 v hv'
    unfold extendAll
    rw [if_neg (by omega)]
    rcases List.mem_cons.mp hv with rfl | hv'
    · exact List.mem_append_left _ (List.mem_map.mpr ⟨suf, hsuf, rfl⟩)
    · exact List.mem_append_right _ (ih hs.2 v suf hv' hvb hsuf)

theorem mem_completions (rem : Nat) : ∀ (b : Int) (A : List Int),
    A ∈ completions rem b ↔ A.length = rem ∧ (∀ a ∈ A, 0 ≤ a ∧ a ≤ 8) ∧ A.sum = b := by
  induction rem with
  | zero =>
    intro b A
    unfold completions
    constructor
    · intro h
      split at h
      · next hb =>
        simp only [List.mem_singleton] at h
        subst h
        simp [hb]
      · simp at h
    · rintro ⟨hlen, _, hsum⟩
      have hA : A = [] := List.length_eq_zero.mp hlen
      subst hA
      simp only [List.sum_nil] at hsum
      simp [← hsum]
  | succ rem ih =>
    intro b A
    unfold completions
    constructor
    · intro h
      obtain ⟨v, suf, rfl, hv, hvb, hsuf⟩ := mem_extendAll_imp _ _ _ _ h
      obtain ⟨h1, h2, h3⟩ := (ih _ _).1 hsuf
      refine ⟨by simp [h1], ?_, by simp only [List.sum_cons, h3]; omega⟩
      intro a ha
      rcases List.mem_cons.mp ha with rfl | ha'
      · exact (mem_candidateValues _).1 hv
      · exact h2 a ha'
    · rintro ⟨hlen, hrange, hsum⟩
      cases A with
      | nil => simp at hlen
      | cons v suf =>
        simp only [List.length_cons, Nat.add_right_cancel_iff] at hlen
        simp only [List.sum_cons] at hsum
        have hsufr : ∀ a ∈ suf, 0 ≤ a ∧ a ≤ 8 := fun a ha => hrange a (List.mem_cons_of_mem _ ha)
        have hnn : 0 ≤ suf.sum := List.sum_nonneg (fun a ha => (hsufr a ha).1)
        exact mem_extendAll_of _ _ _ candidateValues_sorted v suf
          ((mem_candidateValues v).2 (hrange v (List.mem_cons_self _ _))) (by omega)
          ((ih _ _).2 ⟨hlen, hsufr, by omega⟩)

theorem validLoop_eq_true_iff (A : List Int) : ∀ idxs : List Nat,
    validLoop A idxs = true ↔
      ∀ i ∈ idxs, forbiddenPair (A.getD i 0) (A.getD (i + 1) 0) = false := by
  intro idxs
  induction idxs with
  | nil => simp [validLoop]
  | cons i rest ih =>
    unfold validLoop
    cases hf : forbiddenPair (A.getD i 0) (A.getD (i + 1) 0)
    · simp only [Bool.false_eq_true, if_false, List.forall_mem_cons, hf, true_and]
      exact ih
    · simp only [if_true, List.forall_mem_cons, hf]
      simp

theorem forbiddenPair_eq_false_iff (a b : Int) :
    forbiddenPair a b = false ↔ ¬ (a = 0 ∧ b = 0) ∧ ¬ (a = 0 ∧ b = 1) ∧ ¬ (a = 1 ∧ b = 0) := by
  unfold forbiddenPair
  simp only [Bool.or_eq_false_iff, Bool.and_eq_false_iff, beq_eq_false_iff_ne, ne_eq,
    Bool.or_eq_true, Bool.and_eq_true, beq_iff_eq]
  constructor
  · rintro ⟨h1, h2⟩
    refine ⟨?_, ?_, ?_⟩ <;> rintro ⟨ha, hb⟩ <;> subst ha <;> subst hb <;> simp at h1 h2
  · rintro ⟨h1, h2, h3⟩
    constructor
    · by_cases ha : a = 0
      · right; exact ⟨fun hb => h1 ⟨ha, hb⟩, fun hb => h2 ⟨ha, hb⟩⟩
      · left; exact ha
    · by_cases ha : a = 1
      · right; exact fun hb => h3 ⟨ha, hb⟩
      · left; exact ha

theorem validLoop_iff_noForbiddenAdjacent (A : List Int) :
    validLoop A (List.range (A.length - 1)) = true ↔ NoForbiddenAdjacent A := by
  rw [validLoop_eq_true_iff]
  unfold NoForbiddenAdjacent
  constructor
  · intro h i a b ha hb
    have hi : i + 1 < A.length := by
      rcases List.getElem?_eq_some_iff.mp hb with ⟨hlt, _⟩
      exact hlt
    have := h i (List.mem_range.mpr (by omega))
    rw [List.getD_eq_getElem?_getD, List.getD_eq_getElem?_getD, ha, hb] at this
    exact (forbiddenPair_eq_false_iff a b).1 this
  · intro h i hi
    have hi' : i + 1 < A.length := by have := List.mem_range.mp hi; omega
    have hi0 : i < A.length := by omega
    rw [forbiddenPair_eq_false_iff]
    have := h i A[i] A[i + 1] (List.getElem?_eq_getElem hi0) (List.getElem?_eq_getElem hi')
    rw [List.getD_eq_getElem?_getD, List.getD_eq_getElem?_getD, List.getElem?_eq_getElem hi0,
      List.getElem?_eq_getElem hi']
    exact this

theorem mem_expectedCompositions (K : Nat) (T : Int) (A : List Int) :
    A ∈ expectedCompositions K T ↔ IsValidA K T A := by
  unfold expectedCompositions IsValidA
  rw [List.mem_filter, mem_completions]
  constructor
  · rintro ⟨⟨h1, h2, h3⟩, h4⟩
    refine ⟨h1, h2, h3, ?_⟩
    rw [← h1] at h4
    exact (validLoop_iff_noForbiddenAdjacent A).1 h4
  · rintro ⟨h1, h2, h3, h4⟩
    refine ⟨⟨h1, h2, h3⟩, ?_⟩
    rw [← h1]
    exact (validLoop_iff_noForbiddenAdjacent A).2 h4

theorem forVals_spec (body : Int → GenState → Option GenState) (sum T : Int)
    (next : Int → List (List Int)) (pre : List Int) (valid : List Int → Bool)
    (pos length : Nat)
    (hbody : ∀ (v : Int) (cur : List Int) (res : List (List Int)),
      cur.length = length → cur.take pos = pre →
      ∃ cur', body v (cur, res) = some (cur',
          res ++ ((next (T - sum - v)).map (fun suf => pre ++ v :: suf)).filter valid) ∧
        cur'.length = length ∧ cur'.take pos = pre) :
    ∀ (vs : List Int) (cur : List Int) (res : List (List Int)),
      cur.length = length → cur.take pos = pre →
      ∃ cur', forVals body sum T vs (cur, res) = some (cur',
          res ++ ((extendAll next (T - sum) vs).map (fun suf => pre ++ suf)).filter valid) ∧
        cur'.length = length ∧ cur'.take pos = pre := by
  intro vs
  induction vs with
  | nil =>
    intro cur res hl hp
    exact ⟨cur, by simp [forVals, extendAll], hl, hp⟩
  | cons v vs ih =>
    intro cur res hl hp
    unfold forVals extendAll
    by_cases hbrk : sum + v > T
    · have hb' : T - sum < v := by omega
      rw [if_pos hbrk, if_pos hb']
      exact ⟨cur, by simp, hl, hp⟩
    · have hb' : ¬ (T - sum < v) := by omega
      rw [if_neg hbrk, if_neg hb']
      obtain ⟨cur1, h1, hl1, hp1⟩ := hbody v cur res hl hp
      rw [h1]
      obtain ⟨cur2, h2, hl2, hp2⟩ := ih cur1 _ hl1 hp1
      refine ⟨cur2, ?_, hl2, hp2⟩
      simp only
      rw [h2]
      simp [List.map_append, List.filter_append, List.append_assoc, List.map_map,
        Function.comp_def]

theorem take_succ_set (v : Int) : ∀ (cur : List Int) (pos : Nat), pos < cur.length →
    (cur.set pos v).take (pos + 1) = cur.take pos ++ [v] := by
  intro cur
  induction cur with
  | nil => intro pos h; simp at h
  | cons a rest ih =>
    intro pos h
    cases pos with
    | zero => simp
    | succ pos =>
      simp only [List.length_cons] at h
      simp only [List.set_cons_succ, List.take_succ_cons, List.cons_append, ih pos (by omega)]

theorem generateValidARec_spec : ∀ (rem fuel pos length : Nat) (sum T : Int)
    (current : List Int) (result : List (List Int)),
    pos + rem = length → current.length = length → rem < fuel →
    ∃ current', generateValidARec fuel pos length sum T (current, result) = some (current',
        result ++ ((completions rem (T - sum)).map (fun suf => current.take pos ++ suf)).filter
          (fun A => validLoop A (List.range (length - 1)))) ∧
      current'.length = length ∧ current'.take pos = current.take pos := by
  intro rem
  induction rem with
  | zero =>
    intro fuel pos length sum T current result hpos hlen hfuel
    obtain ⟨fuel, rfl⟩ : ∃ f, fuel = f + 1 := ⟨fuel - 1, by omega⟩
    have hpl : pos = length := by omega
    have htake : current.take pos = current := by
      rw [hpl, ← hlen]; exact List.take_length current
    unfold generateValidARec completions
    rw [if_pos hpl, htake]
    by_cases hs : sum = T
    · have hz : T - sum = 0 := by omega
      rw [if_pos hs, if_pos hz]
      by_cases hv : validLoop current (List.range (length - 1)) = true
      · refine ⟨current, ?_, hlen, htake⟩
        simp [hv]
      · refine ⟨current, ?_, hlen, htake⟩
        simp [hv]
    · have hz : ¬ (T - sum = 0) := by omega
      rw [if_neg hs, if_neg hz]
      exact ⟨current, by simp, hlen, htake⟩
  | succ rem ih =>
    intro fuel pos length sum T current result hpos hlen hfuel
    obtain ⟨fuel, rfl⟩ : ∃ f, fuel = f + 1 := ⟨fuel - 1, by omega⟩
    have hpl : ¬ pos = length := by omega
    unfold generateValidARec completions
    rw [if_neg hpl]
    refine forVals_spec _ sum T (completions rem) (current.take pos)
      (fun A => validLoop A (List.range (length - 1))) pos length ?_ candidateValues current
      result hlen rfl
    intro v cur res hl hp
    have hposlt : pos < cur.length := by omega
    obtain ⟨cur', h1, hl1, hp1⟩ := ih fuel (pos + 1) length (sum + v) T (cur.set pos v) res
      (by omega) (by simp [hl]) (by omega)
    rw [take_succ_set v cur pos hposlt, hp] at h1 hp1
    refine ⟨cur', ?_, hl1, ?_⟩
    · simp only
      rw [h1]
      have e : T - (sum + v) = T - sum - v := by omega
      rw [e]
      simp
    · have : cur'.take pos = (cur'.take (pos + 1)).take pos := by
        rw [List.take_take]; simp
      rw [this, hp1]
      have hlp : (current.take pos).length = pos := by
        rw [List.length_take]; omega
      rw [List.take_append_of_le_length (by omega), List.take_of_length_le (by omega)]

/-- With fuel beyond the length `K`, the call from position `0` with an empty result returns
exactly the expected list. -/
theorem generateValidARec_top (K fuel : Nat) (T : Int) (current : List Int)
    (hlen : current.length = K) (hfuel : K < fuel) :
    ∃ current', generateValidARec fuel 0 K 0 T (current, []) =
      some (current', expectedCompositions K T) := by
  obtain ⟨cur', h, _, _⟩ := generateValidARec_spec K fuel 0 K 0 T current [] (by omega) hlen hfuel
  refine ⟨cur', ?_⟩
  rw [h]
  simp [expectedCompositions]

theorem generate_valid_A_eq : generate_valid_A = some (expectedCompositions 9 12) := by
  obtain ⟨cur', h⟩ := generateValidARec_top 9 10 12 (List.replicate 9 0) (by simp) (by omega)
  simp only [generate_valid_A, h, Option.map_some']

theorem mem_generate_valid_A_of (A : List Int) (h1 : A.length = 9)
    (h2 : ∀ a ∈ A, 0 ≤ a ∧ a ≤ 8) (h3 : A.sum = 12)
    (h4 : validLoop A (List.range (A.length - 1)) = true) :
    ∃ res, generate_valid_A = some res ∧ A ∈ res :=
  ⟨_, generate_valid_A_eq, (mem_expectedCompositions 9 12 A).2
    ⟨h1, h2, h3, (validLoop_iff_noForbiddenAdjacent A).1 h4⟩⟩

theorem sum_of_mem_generate_valid_A (res : List (List Int)) (h : generate_valid_A = some res)
    (A : List Int) (hA : A ∈ res) : A.length = 9 ∧ A.sum = 12 := by
  rw [generate_valid_A_eq] at h
  have hres : expectedCompositions 9 12 = res := Option.some.inj h
  rw [← hres] at hA
  have := (mem_expectedCompositions 9 12 A).1 hA
  exact ⟨this.1, this.2.2.1⟩

/-! ## The composition generator: order of the output and small cases -/

theorem lexLt_irrefl : ∀ l : List Int, ¬ LexLt l l := by
  intro l
  induction l with
  | nil => intro h; cases h
  | cons a l ih =>
    intro h
    cases h with
    | head _ _ h => exact lt_irrefl a h
    | tail _ h => exact ih h

theorem candidateValues_strictly_sorted : candidateValues.Pairwise (fun a b => a < b) := by
  unfold candidateValues
  decide

theorem extendAll_pairwise (next : Int → List (List Int)) (b : Int)
    (hnext : ∀ b', (next b').Pairwise LexLt) : ∀ vs : List Int,
    vs.Pairwise (fun a b => a < b) → (extendAll next b vs).Pairwise LexLt := by
  intro vs
  induction vs with
  | nil => intro _; simp [extendAll]
  | cons v vs ih =>
    intro hs
    rw [List.pairwise_cons] at hs
    unfold extendAll
    split
    · exact List.Pairwise.nil
    · rw [List.pairwise_append]
      refine ⟨?_, ih hs.2, ?_⟩
      · rw [List.pairwise_map]
        exact (hnext (b - v)).imp (fun h => LexLt.tail v h)
      · intro A hA B hB
        obtain ⟨suf, _, rfl⟩ := List.mem_map.mp hA
        obtain ⟨w, suf', rfl, hw, _, _⟩ := mem_extendAll_imp next b vs B hB
        exact LexLt.head _ _ (hs.1 w hw)

theorem completions_pairwise : ∀ (rem : Nat) (b : Int), (completions rem b).Pairwise LexLt := by
  intro rem
  induction rem with
  | zero =>
    intro b
    unfold completions
    split
    · exact List.pairwise_singleton _ _
    · exact List.Pairwise.nil
  | succ rem ih =>
    intro b
    unfold completions
    exact extendAll_pairwise _ b ih _ candidateValues_strictly_sorted

theorem expectedCompositions_pairwise (K : Nat) (T : Int) :
    (expectedCompositions K T).Pairwise LexLt :=
  (completions_pairwise K T).sublist (List.filter_sublist _)

theorem expectedCompositions_nodup (K : Nat) (T : Int) : (expectedCompositions K T).Nodup := by
  unfold List.Nodup
  refine (expectedCompositions_pairwise K T).imp ?_
  intro a b h e
  rw [e] at h
  exact lexLt_irrefl b h

theorem noForbidden_head {a b : Int} {rest : List Int}
    (h : NoForbiddenAdjacent (a :: b :: rest)) :
    ¬ (a = 0 ∧ b = 0) ∧ ¬ (a = 0 ∧ b = 1) ∧ ¬ (a = 1 ∧ b = 0) :=
  h 0 a b (by simp) (by simp)

theorem noForbidden_tail {a : Int} {rest : List Int} (h : NoForbiddenAdjacent (a :: rest)) :
    NoForbiddenAdjacent rest := by
  intro i x y hx hy
  exact h (i + 1) x y (by simpa using hx) (by simpa using hy)

theorem sum_zero_of_nonneg : ∀ A : List Int, (∀ a ∈ A, 0 ≤ a) → A.sum = 0 →
    (∀ a ∈ A, a = 0) ∧ A.count 1 = 0 := by
  intro A
  induction A with
  | nil => intro _ _; simp
  | cons a rest ih =>
    intro hnn hsum
    have ha : 0 ≤ a := hnn a (List.mem_cons_self _ _)
    have hrest : ∀ x ∈ rest, 0 ≤ x := fun x hx => hnn x (List.mem_cons_of_mem _ hx)
    have hs : 0 ≤ rest.sum := List.sum_nonneg hrest
    simp only [List.sum_cons] at hsum
    have ha0 : a = 0 := by omega
    obtain ⟨h1, h2⟩ := ih hrest (by omega)
    subst ha0
    refine ⟨?_, ?_⟩
    · intro x hx
      rcases List.mem_cons.mp hx with rfl | hx'
      · rfl
      · exact h1 x hx'
    · rw [List.count_cons_of_ne (by decide), h2]

theorem single_one_of_sum_one : ∀ A : List Int, (∀ a ∈ A, 0 ≤ a) → A.sum = 1 →
    (∀ a ∈ A, a = 0 ∨ a = 1) ∧ A.count 1 = 1 := by
  intro A
  induction A with
  | nil => intro _ h; simp at h
  | cons a rest ih =>
    intro hnn hsum
    have ha : 0 ≤ a := hnn a (List.mem_cons_self _ _)
    have hrest : ∀ x ∈ rest, 0 ≤ x := fun x hx => hnn x (List.mem_cons_of_mem _ hx)
    have hs : 0 ≤ rest.sum := List.sum_nonneg hrest
    simp only [List.sum_cons] at hsum
    rcases (show a = 0 ∨ a = 1 by omega) with ha0 | ha1
    · subst ha0
      obtain ⟨h1, h2⟩ := ih hrest (by omega)
      refine ⟨?_, ?_⟩
      · intro x hx
        rcases List.mem_cons.mp hx with rfl | hx'
        · exact Or.inl rfl
        · exact h1 x hx'
      · rw [List.count_cons_of_ne (by decide), h2]
    · subst ha1
      obtain ⟨h1, h2⟩ := sum_zero_of_nonneg rest hrest (by omega)
      refine ⟨?_, ?_⟩
      · intro x hx
        rcases List.mem_cons.mp hx with rfl | hx'
        · exact Or.inr rfl
        · exact Or.inl (h1 x hx')
      · rw [List.count_cons_self, h2]

theorem not_noForbidden_of_sum_one (A : List Int) (hlen : 2 ≤ A.length)
    (hnn : ∀ a ∈ A, 0 ≤ a) (hsum : A.sum = 1) : ¬ NoForbiddenAdjacent A := by
  intro h
  match A, hlen, hnn, hsum, h with
  | a :: b :: rest, _, hnn, hsum, h =>
    have ha : 0 ≤ a := hnn a (by simp)
    have hb : 0 ≤ b := hnn b (by simp)
    have hs : 0 ≤ rest.sum := List.sum_nonneg (fun x hx => hnn x (by simp [hx]))
    simp only [List.sum_cons] at hsum
    have := noForbidden_head h
    omega

theorem expectedCompositions_target_one (K : Nat) (hK : 2 ≤ K) :
    expectedCompositions K 1 = [] := by
  rw [List.eq_nil_iff_forall_not_mem]
  intro A hA
  obtain ⟨h1, h2, h3, h4⟩ := (mem_expectedCompositions K 1 A).1 hA
  exact not_noForbidden_of_sum_one A (by omega) (fun a ha => (h2 a ha).1) h3 h4

/-- A lower bound on the sum of a sequence without forbidden adjacent pairs, in terms of its
length and any one of its entries. -/
theorem sum_lower_bound : ∀ A : List Int, (∀ a ∈ A, 0 ≤ a) → NoForbiddenAdjacent A →
    ((A.length : Int) ≤ A.sum + 1) ∧
    (∀ m ∈ A, (A.length : Int) + m ≤ A.sum + 3) ∧
    (∀ b rest, A = b :: rest → 2 ≤ b → ∀ m ∈ A, (A.length : Int) + m ≤ A.sum + 2) := by
  intro A
  induction A with
  | nil => intro _ _; simp
  | cons a rest ih =>
    intro hnn hv
    have ha : 0 ≤ a := hnn a (List.mem_cons_self _ _)
    have hrest : ∀ x ∈ rest, 0 ≤ x := fun x hx => hnn x (List.mem_cons_of_mem _ hx)
    obtain ⟨ih1, ih2, ih3⟩ := ih hrest (noForbidden_tail hv)
    simp only [List.length_cons, List.sum_cons, Nat.cast_add, Nat.cast_one]
    have key : a = 0 → (rest.length : Int) ≤ rest.sum ∧
        ∀ m ∈ rest, (rest.length : Int) + m + 1 ≤ rest.sum + 3 := by
      intro ha0
      cases rest with
      | nil => simp
      | cons b rest' =>
        have hb : 0 ≤ b := hrest b (List.mem_cons_self _ _)
        have hf := noForbidden_head hv
        have hb2 : 2 ≤ b := by omega
        have h3 := ih3 b rest' rfl hb2
        refine ⟨?_, ?_⟩
        · have := h3 b (List.mem_cons_self _ _)
          omega
        · intro m hm
          have := h3 m hm
          omega
    refine ⟨?_, ?_, ?_⟩
    · by_cases ha0 : a = 0
      · have := (key ha0).1
        omega
      · omega
    · intro m hm
      rcases List.mem_cons.mp hm with rfl | hm'
      · omega
      · by_cases ha0 : a = 0
        · have := (key ha0).2 m hm'
          omega
        · have := ih2 m hm'
          omega
    · intro b rest0 hA hb2 m hm
      have hab : a = b := (List.cons.inj hA).1
      rcases List.mem_cons.mp hm with rfl | hm'
      · omega
      · have := ih2 m hm'
        omega

theorem entries_le_six_of_valid (A : List Int) (h : IsValidA 9 12 A) :
    ∀ a ∈ A, 0 ≤ a ∧ a ≤ 6 := by
  obtain ⟨h1, h2, h3, h4⟩ := h
  intro a ha
  have := (sum_lower_bound A (fun x hx => (h2 x hx).1) h4).2.1 a ha
  rw [h1, h3] at this
  refine ⟨(h2 a ha).1, ?_⟩
  push_cast at this
  omega

/-! ## The string enumerator -/

theorem wrapInt32_two_pow (L : Nat) (hL : L ≤ 30) : wrapInt32 (2 ^ L) = 2 ^ L := by
  have h1 : (2 : Int) ^ L ≤ 2 ^ 30 := pow_le_pow_right₀ (by norm_num) hL
  have h2 : (0 : Int) < 2 ^ L := by positivity
  unfold wrapInt32
  norm_num at h1 ⊢
  rw [Int.emod_eq_of_lt (by omega) (by omega)]
  omega

theorem generateBinaryStrings_eq (L : Nat) (hL : L ≤ 30) :
    generateBinaryStrings L = (List.range (2 ^ L)).map (fun i => bitString L i) := by
  unfold generateBinaryStrings
  simp only [wrapInt32_two_pow L hL]
  have : ((2 : Int) ^ L).toNat = 2 ^ L := by
    have e : (2 : Int) ^ L = ((2 ^ L : Nat) : Int) := by push_cast; rfl
    rw [e, Int.toNat_ofNat]
  rw [this]

theorem bitString_succ (L i : Nat) :
    bitString (L + 1) i = (if (i >>> L) &&& 1 ≠ 0 then '1' else '0') :: bitString L i := by
  unfold bitString
  rw [List.range_succ, List.reverse_append]
  rfl

theorem bitString_length (L i : Nat) : (bitString L i).length = L := by
  simp [bitString]

theorem bitString_chars (L i : Nat) : ∀ c ∈ bitString L i, c = '0' ∨ c = '1' := by
  intro c hc
  unfold bitString at hc
  obtain ⟨j, _, rfl⟩ := List.mem_map.mp hc
  split
  · exact Or.inr rfl
  · exact Or.inl rfl

theorem foldl_bitString (i : Nat) : ∀ (L acc : Nat),
    (bitString L i).foldl (fun acc c => 2 * acc + (if c = '1' then 1 else 0)) acc
      = acc * 2 ^ L + i % 2 ^ L := by
  intro L
  induction L with
  | zero => intro acc; simp [bitString, Nat.mod_one]
  | succ L ih =>
    intro acc
    rw [bitString_succ, List.foldl_cons, ih, Nat.mod_pow_succ, Nat.shiftRight_eq_div_pow,
      Nat.and_one_is_mod]
    rcases Nat.mod_two_eq_zero_or_one (i / 2 ^ L) with h | h
    · simp [h]; ring
    · simp [h]; ring

theorem binValue_bitString (L i : Nat) (h : i < 2 ^ L) : binValue (bitString L i) = i := by
  unfold binValue
  rw [foldl_bitString, Nat.mod_eq_of_lt h]
  simp

theorem generateBinaryStrings_getElem? (L i : Nat) (hL : L ≤ 30) (h : i < 2 ^ L) :
    (generateBinaryStrings L)[i]? = some (bitString L i) := by
  rw [generateBinaryStrings_eq L hL]
  simp [h]

theorem generateBinaryStrings_nodup (L : Nat) (hL : L ≤ 30) :
    (generateBinaryStrings L).Nodup := by
  rw [generateBinaryStrings_eq L hL]
  refine List.Nodup.map_on ?_ (List.nodup_range _)
  intro a ha b hb hab
  rw [← binValue_bitString L a (List.mem_range.mp ha),
    ← binValue_bitString L b (List.mem_range.mp hb), hab]

theorem mem_generateBinaryStrings_length (L : Nat) (hL : L ≤ 30) (s : Str)
    (h : s ∈ generateBinaryStrings L) : s.length = L := by
  rw [generateBinaryStrings_eq L hL] at h
  obtain ⟨i, _, rfl⟩ := List.mem_map.mp h
  exact bitString_length L i

theorem bitString_mem_generateBinaryStrings (L i : Nat) (hL : L ≤ 30) (h : i < 2 ^ L) :
    bitString L i ∈ generateBinaryStrings L := by
  rw [generateBinaryStrings_eq L hL]
  exact List.mem_map.mpr ⟨i, List.mem_range.mpr h, rfl⟩

/-! ## The search loops -/

theorem embedAll_eq_family (A : List Int) (y : Str) : ∀ xs : List Str,
    (∀ x ∈ xs, ∃ e, embed_with_array x y A = Except.ok e) →
    embedAll y A xs = Except.ok (family A y xs) := by
  intro xs
  induction xs with
  | nil => intro _; rfl
  | cons x xs ih =>
    intro h
    obtain ⟨e, he⟩ := h x (List.mem_cons_self _ _)
    unfold embedAll
    rw [he, ih (fun x' hx' => h x' (List.mem_cons_of_mem _ hx'))]
    simp [family, embedOrEmpty, he]

theorem family_length_eq (A : List Int) (y : Str) (xs : List Str)
    (h : ∀ x ∈ xs, ∃ e, embed_with_array x y A = Except.ok e) :
    ∀ a ∈ family A y xs, ∀ b ∈ family A y xs, a.length = b.length := by
  intro a ha b hb
  obtain ⟨x1, hx1, rfl⟩ := List.mem_map.mp ha
  obtain ⟨x2, hx2, rfl⟩ := List.mem_map.mp hb
  obtain ⟨e1, he1⟩ := h x1 hx1
  obtain ⟨e2, he2⟩ := h x2 hx2
  have := embed_length_indep y A x1 x2 e1 e2 he1 he2
  simpa [embedOrEmpty, he1, he2] using this

theorem getD_mem_of_lt (e : List Str) (i : Nat) (h : i < e.length) : e.getD i [] ∈ e := by
  rw [List.getD_eq_getElem?_getD, List.getElem?_eq_getElem h]
  exact List.getElem_mem h

theorem pairLoop_spec (e : List Str) (i : Nat) : ∀ js : List Nat,
    (∀ j ∈ js, ∃ d, hamming_distance (e.getD i []) (e.getD j []) = Except.ok d) →
    ∃ b, pairLoop e i js = Except.ok b ∧
      (b = true ↔ ∀ j ∈ js, DistancesAgree (e.getD i []) (e.getD j [])) := by
  intro js
  induction js with
  | nil => intro _; exact ⟨true, rfl, by simp⟩
  | cons j rest ih =>
    intro h
    obtain ⟨d, hd⟩ := h j (List.mem_cons_self _ _)
    obtain ⟨b, hb, hiff⟩ := ih (fun j' hj' => h j' (List.mem_cons_of_mem _ hj'))
    unfold pairLoop
    rw [hd]
    by_cases hne : edit_distance (e.getD i []) (e.getD j []) ≠ d
    · refine ⟨false, by simp only; rw [if_pos hne], ?_⟩
      constructor
      · intro hc; cases hc
      · intro hall
        have := hall j (List.mem_cons_self _ _)
        unfold DistancesAgree at this
        rw [hd] at this
        simp only [Except.ok.injEq] at this
        exact absurd this.symm hne
    · have heq : edit_distance (e.getD i []) (e.getD j []) = d := not_not.mp hne
      refine ⟨b, by simp only; rw [if_neg hne]; exact hb, ?_⟩
      rw [hiff, List.forall_mem_cons]
      constructor
      · intro hall
        refine ⟨?_, hall⟩
        unfold DistancesAgree
        rw [hd, heq]
      · intro hall; exact hall.2

theorem familyLoop_spec (e : List Str) : ∀ is : List Nat,
    (∀ i ∈ is, ∀ j ∈ List.range' (i + 1) (e.length - (i + 1)),
      ∃ d, hamming_distance (e.getD i []) (e.getD j []) = Except.ok d) →
    ∃ b, familyLoop e is = Except.ok b ∧
      (b = true ↔ ∀ i ∈ is, ∀ j ∈ List.range' (i + 1) (e.length - (i + 1)),
        DistancesAgree (e.getD i []) (e.getD j [])) := by
  intro is
  induction is with
  | nil => intro _; exact ⟨true, rfl, by simp⟩
  | cons i rest ih =>
    intro h
    obtain ⟨b1, hb1, hiff1⟩ := pairLoop_spec e i _ (h i (List.mem_cons_self _ _))
    obtain ⟨b2, hb2, hiff2⟩ := ih (fun i' hi' => h i' (List.mem_cons_of_mem _ hi'))
    unfold familyLoop
    rw [hb1]
    cases b1 with
    | false =>
      refine ⟨false, rfl, ?_⟩
      constructor
      · intro hc; cases hc
      · intro hall
        have := hiff1.2 (hall i (List.mem_cons_self _ _))
        cases this
    | true =>
      refine ⟨b2, hb2, ?_⟩
      rw [hiff2, List.forall_mem_cons]
      constructor
      · intro hall; exact ⟨hiff1.1 rfl, hall⟩
      · intro hall; exact hall.2

theorem familyLoop_family (A : List Int) (y : Str) (xs : List Str)
    (h : ∀ x ∈ xs, ∃ e, embed_with_array x y A = Except.ok e) :
    familyLoop (family A y xs) (List.range (family A y xs).length) =
      Except.ok (decide (IsWitness A xs y)) := by
  have hlen := family_length_eq A y xs h
  obtain ⟨b, hb, hiff⟩ := familyLoop_spec (family A y xs) (List.range (family A y xs).length)
    (by
      intro i hi j hj
      have hi' := List.mem_range.mp hi
      have hj' := List.mem_range'_1.mp hj
      exact hamming_distance_ok_of_length_eq _ _
        (hlen _ (getD_mem_of_lt _ i hi') _ (getD_mem_of_lt _ j (by omega))))
  rw [hb]
  congr 1
  have hw : IsWitness A xs y ↔ ∀ i ∈ List.range (family A y xs).length,
      ∀ j ∈ List.range' (i + 1) ((family A y xs).length - (i + 1)),
        DistancesAgree ((family A y xs).getD i []) ((family A y xs).getD j []) := by
    unfold IsWitness
    constructor
    · intro hall i _ j hj
      have hj' := List.mem_range'_1.mp hj
      exact hall j (by omega) i (by omega)
    · intro hall j hj i hij
      exact hall i (List.mem_range.mpr (by omega)) j (List.mem_range'_1.mpr (by omega))
  cases b with
  | false =>
    symm
    rw [decide_eq_false_iff_not, hw, ← hiff]
    simp
  | true =>
    symm
    rw [decide_eq_true_iff, hw, ← hiff]

theorem yLoop_spec (A : List Int) (xs : List Str) : ∀ ys : List Str,
    (∀ y ∈ ys, ∀ x ∈ xs, ∃ e, embed_with_array x y A = Except.ok e) →
    yLoop A xs ys = Except.ok (ys.find? (fun y => decide (IsWitness A xs y))) := by
  intro ys
  induction ys with
  | nil => intro _; rfl
  | cons y rest ih =>
    intro h
    have hy := h y (List.mem_cons_self _ _)
    unfold yLoop
    rw [embedAll_eq_family A y xs hy]
    simp only
    rw [familyLoop_family A y xs hy, List.find?_cons]
    cases hd : decide (IsWitness A xs y) with
    | false => simp only; exact ih (fun y' hy' => h y' (List.mem_cons_of_mem _ hy'))
    | true => rfl

theorem searchLoop_spec (xs ys : List Str) : ∀ (As : List (List Int))
    (printed : List (List Int × Str)),
    (∀ A ∈ As, ∀ y ∈ ys, ∀ x ∈ xs, ∃ e, embed_with_array x y A = Except.ok e) →
    searchLoop xs ys As printed = (printed ++ expectedReports As ys xs, none) := by
  intro As
  induction As with
  | nil => intro printed _; simp [searchLoop, expectedReports]
  | cons A rest ih =>
    intro printed h
    have hA := h A (List.mem_cons_self _ _)
    have hrest := fun A' hA' => h A' (List.mem_cons_of_mem _ hA')
    unfold searchLoop
    rw [yLoop_spec A xs ys hA]
    cases hf : ys.find? (fun y => decide (IsWitness A xs y)) with
    | none =>
      simp only
      rw [ih printed hrest]
      simp [expectedReports, hf]
    | some y =>
      simp only
      rw [ih _ hrest]
      simp [expectedReports, hf]

theorem searchDriver_eq (As : List (List Int)) (ys xs : List Str)
    (h : ∀ A ∈ As, ∀ y ∈ ys, ∀ x ∈ xs, ∃ e, embed_with_array x y A = Except.ok e) :
    searchDriver As ys xs = (expectedReports As ys xs, none) := by
  unfold searchDriver
  rw [searchLoop_spec xs ys As [] h]
  simp

/-! ## Hamming distance -/

theorem mismatches_cons (a b : Char) (s t : Str) :
    mismatches (a :: s) (b :: t) = (if a ≠ b then 1 else 0) + mismatches s t := by
  rw [mismatches]

theorem mismatches_nil_left (t : Str) : mismatches [] t = 0 := by
  rw [mismatches]
  intro a s b t' h
  cases h

theorem foldl_hamming (c0 : Char) : ∀ (s t : Str) (init : Nat), s.length = t.length →
    (List.range s.length).foldl
      (fun distance i => if s.getD i c0 ≠ t.getD i c0 then distance + 1 else distance) init
      = init + mismatches s t := by
  intro s
  induction s with
  | nil => intro t init _; simp [mismatches_nil_left]
  | cons a s ih =>
    intro t init h
    cases t with
    | nil => simp at h
    | cons b t =>
      simp only [List.length_cons, Nat.add_right_cancel_iff] at h
      rw [List.length_cons, List.range_succ_eq_map, List.foldl_cons, List.foldl_map,
        mismatches_cons]
      simp only [List.getD_cons_zero, List.getD_cons_succ]
      rw [ih t _ h]
      split <;> omega

theorem hamming_eq_mismatches (s t : Str) (h : s.length = t.length) :
    hamming_distance s t = Except.ok (mismatches s t) := by
  unfold hamming_distance
  rw [if_neg (by simp [h]), foldl_hamming _ s t 0 h, Nat.zero_add]

theorem mismatches_self : ∀ s : Str, mismatches s s = 0 := by
  intro s
  induction s with
  | nil => exact mismatches_nil_left []
  | cons a s ih => rw [mismatches_cons, ih]; simp

theorem mismatches_comm : ∀ s t : Str, mismatches s t = mismatches t s := by
  intro s
  induction s with
  | nil =>
    intro t
    cases t with
    | nil => rfl
    | cons b t => rw [mismatches_nil_left]; rw [mismatches]; intro a s b' t' h1 h2; cases h2
  | cons a s ih =>
    intro t
    cases t with
    | nil => rw [mismatches_nil_left]; rw [mismatches]; intro a' s' b' t' h1 h2; cases h2
    | cons b t =>
      rw [mismatches_cons, mismatches_cons, ih t]
      by_cases hab : a = b
      · subst hab; rfl
      · have hba : ¬ b = a := fun e => hab e.symm
        simp [hab, hba]

theorem mismatches_append : ∀ (a1 a2 b1 b2 : Str), a1.length = a2.length →
    mismatches (a1 ++ b1) (a2 ++ b2) = mismatches a1 a2 + mismatches b1 b2 := by
  intro a1
  induction a1 with
  | nil =>
    intro a2 b1 b2 h
    have : a2 = [] := List.length_eq_zero.mp h.symm
    subst this
    simp [mismatches_nil_left]
  | cons c a1 ih =>
    intro a2 b1 b2 h
    cases a2 with
    | nil => simp at h
    | cons d a2 =>
      simp only [List.length_cons, Nat.add_right_cancel_iff] at h
      rw [List.cons_append, List.cons_append, mismatches_cons, mismatches_cons, ih a2 b1 b2 h]
      omega

theorem eq_of_mismatches_eq_zero : ∀ s t : Str, s.length = t.length → mismatches s t = 0 →
    s = t := by
  intro s
  induction s with
  | nil =>
    intro t h _
    exact (List.length_eq_zero.mp h.symm).symm
  | cons a s ih =>
    intro t h hm
    cases t with
    | nil => simp at h
    | cons b t =>
      simp only [List.length_cons, Nat.add_right_cancel_iff] at h
      rw [mismatches_cons] at hm
      by_cases hab : a = b
      · subst hab
        rw [ih t h (by omega)]
      · simp [hab] at hm

theorem align_mismatches : ∀ s t : Str, s.length = t.length → Align s t (mismatches s t) := by
  intro s
  induction s with
  | nil =>
    intro t h
    have : t = [] := List.length_eq_zero.mp h.symm
    subst this
    rw [mismatches_nil_left]
    exact Align.nil
  | cons a s ih =>
    intro t h
    cases t with
    | nil => simp at h
    | cons b t =>
      simp only [List.length_cons, Nat.add_right_cancel_iff] at h
      rw [mismatches_cons]
      by_cases hab : a = b
      · subst hab
        simp only [ne_eq, not_true_eq_false, if_false, Nat.zero_add]
        exact Align.keep a (ih t h)
      · simp only [ne_eq, hab, not_false_eq_true, if_true]
        rw [Nat.add_comm]
        exact Align.sub a b hab (ih t h)

theorem edit_distance_le_mismatches (s t : Str) (h : s.length = t.length) :
    edit_distance s t ≤ mismatches s t :=
  edit_distance_le_of_editPath (editPath_of_align (align_mismatches s t h))

theorem weave_length_any (x1 x2 y : Str) : ∀ (B : List Nat) (i p : Nat),
    (weave x1 y B i p).length = (weave x2 y B i p).length := by
  intro B
  induction B with
  | nil => intro i p; simp [weave]
  | cons k rest ih =>
    intro i p
    simp only [weave, List.length_cons, List.length_append, ih (i + 1) (p + k)]

theorem mismatches_weave (x1 x2 y : Str) : ∀ (B : List Nat) (i p : Nat),
    i + B.length ≤ x1.length → i + B.length ≤ x2.length →
    mismatches (weave x1 y B i p) (weave x2 y B i p) =
      mismatches ((x1.drop i).take B.length) ((x2.drop i).take B.length) := by
  intro B
  induction B with
  | nil => intro i p _ _; simp [weave, mismatches_nil_left]
  | cons k rest ih =>
    intro i p h1 h2
    simp only [List.length_cons] at h1 h2
    have hi1 : i < x1.length := by omega
    have hi2 : i < x2.length := by omega
    have e1 : x1.drop i = x1.getD i (Char.ofNat 0) :: x1.drop (i + 1) := by
      rw [List.getD_eq_getElem?_getD, List.getElem?_eq_getElem hi1, Option.getD_some]
      exact List.drop_eq_getElem_cons hi1
    have e2 : x2.drop i = x2.getD i (Char.ofNat 0) :: x2.drop (i + 1) := by
      rw [List.getD_eq_getElem?_getD, List.getElem?_eq_getElem hi2, Option.getD_some]
      exact List.drop_eq_getElem_cons hi2
    rw [weave, weave, mismatches_cons, mismatches_append _ _ _ _ rfl, mismatches_self,
      ih (i + 1) (p + k) (by omega) (by omega), e1, e2, List.length_cons, List.take_succ_cons,
      List.take_succ_cons, mismatches_cons]
    omega

theorem eq_take_append_last (x : Str) (n : Nat) (hx : x.length = n + 1) :
    x = x.take n ++ [x.getD n (Char.ofNat 0)] := by
  have hn : n < x.length := by omega
  have h1 : x.take (n + 1) = x := List.take_of_length_le (by omega)
  rw [List.take_succ, List.getD_eq_getElem?_getD, List.getElem?_eq_getElem hn] at *
  simpa using h1.symm

theorem mismatches_embed (x1 x2 y : Str) (B : List Nat) (hx1 : x1.length = B.length + 1)
    (hx2 : x2.length = B.length + 1) :
    mismatches (weave x1 y B 0 0 ++ [x1.getD B.length (Char.ofNat 0)])
        (weave x2 y B 0 0 ++ [x2.getD B.length (Char.ofNat 0)])
      = mismatches x1 x2 := by
  rw [mismatches_append _ _ _ _ (weave_length_any x1 x2 y B 0 0),
    mismatches_weave x1 x2 y B 0 0 (by omega) (by omega)]
  simp only [List.drop_zero]
  conv_rhs => rw [eq_take_append_last x1 B.length hx1, eq_take_append_last x2 B.length hx2]
  rw [mismatches_append _ _ _ _ (by simp only [List.length_take]; omega)]

theorem card_filter_range_eq_countP (n : Nat) (P : Nat → Prop) [DecidablePred P] :
    (Finset.filter P (Finset.range n)).card = (List.range n).countP (fun i => decide (P i)) := by
  rw [List.countP_eq_length_filter]
  simp [Finset.card, Finset.filter, Finset.range, Multiset.range]

theorem foldl_count (p : Nat → Prop) [DecidablePred p] : ∀ (l : List Nat) (init : Nat),
    l.foldl (fun distance i => if p i then distance + 1 else distance) init
      = init + l.countP (fun i => decide (p i)) := by
  intro l
  induction l with
  | nil => intro init; simp
  | cons i l ih =>
    intro init
    rw [List.foldl_cons, ih, List.countP_cons]
    by_cases hp : p i
    · simp [hp]; omega
    · simp [hp]

theorem hamming_eq_card (s t : Str) (h : s.length = t.length) :
    hamming_distance s t =
      Except.ok (Finset.filter (fun i => s[i]? ≠ t[i]?) (Finset.range s.length)).card := by
  unfold hamming_distance
  rw [if_neg (by simp [h]), foldl_count, Nat.zero_add, card_filter_range_eq_countP]
  congr 1
  apply List.countP_congr
  intro i hi
  have hi1 : i < s.length := List.mem_range.mp hi
  have hi2 : i < t.length := by omega
  simp only [List.getD_eq_getElem?_getD, List.getElem?_eq_getElem hi1,
    List.getElem?_eq_getElem hi2, Option.getD_some, ne_eq, decide_eq_true_eq, Option.some.injEq]

/-! ## The claims -/

/-- C1: `edit_distance s1 s2` is the Levenshtein distance of `s1` and `s2`: some sequence of
exactly that many single-character insertions, deletions and substitutions turns `s1` into
`s2`, no sequence of such edits does so with fewer, and `edit_distance "kitten" "sitting"`
is `3`. -/
theorem edit_distance_is_levenshtein (s1 s2 : Str) :
    EditPath (edit_distance s1 s2) s1 s2 ∧
    (∀ n, EditPath n s1 s2 → edit_distance s1 s2 ≤ n) ∧
    edit_distance "kitten".toList "sitting".toList = 3 :=
  ⟨edit_distance_editPath s1 s2, fun _ h => edit_distance_le_of_editPath h, by decide⟩

/-- C4: when the entries of `A` are non-negative, `sum(A) = len(y)` and `len(x) = K + 1`,
`embed_with_array x y A` returns a string `out` with `x[i]` at position
`i + A[0] + ... + A[i-1]` for every `i < K`, with `x[K]` at its last position, and whose
characters at the other positions, read from left to right, are exactly `y`. -/
theorem embed_with_array_layout (x y : Str) (A : List Int) (hA : ∀ a ∈ A, 0 ≤ a)
    (hsum : A.sum = (y.length : Int)) (hx : x.length = A.length + 1) :
    ∃ out, embed_with_array x y A = Except.ok out ∧
      (∀ i, i < A.length → ∃ c, x[i]? = some c ∧ out[xPosition A i]? = some c) ∧
      (∃ c, x[A.length]? = some c ∧ out[out.length - 1]? = some c) ∧
      keepOutside ((List.range A.length).map (xPosition A) ++ [out.length - 1]) 0 out = y := by
  have hB : ((A.map Int.toNat).sum : Int) = (y.length : Int) := by
    rw [sum_map_toNat A hA, hsum]
  have hB' : (A.map Int.toNat).sum = y.length := by exact_mod_cast hB
  have hwl := weave_length x y (A.map Int.toNat) 0 0 (by omega)
  rw [List.length_map, hB'] at hwl
  have hlen := embed_length x y A hA hsum hx
  refine ⟨_, embed_eq_weave x y A hA hsum hx, ?_, ?_, ?_⟩
  · intro i hi
    have hix : i < x.length := by omega
    refine ⟨x.getD i (Char.ofNat 0), ?_, ?_⟩
    · rw [List.getD_eq_getElem?_getD, List.getElem?_eq_getElem hix]; rfl
    · have hg := weave_getElem x y (A.map Int.toNat) 0 0 i (by omega)
        (by rw [List.length_map]; exact hi)
      rw [xPosition_eq A hA, List.getElem?_append_left]
      · rw [hg, Nat.zero_add]
      · rw [hwl]
        have := sum_take_le (A.map Int.toNat) i
        omega
  · have hKx : A.length < x.length := by omega
    refine ⟨x.getD A.length (Char.ofNat 0), ?_, ?_⟩
    · rw [List.getD_eq_getElem?_getD, List.getElem?_eq_getElem hKx]; rfl
    · rw [List.length_append, List.length_singleton, Nat.add_sub_cancel,
        List.getElem?_append_right (le_refl _)]
      simp
  · rw [hlen, keepOutside_append, hwl, Nat.zero_add]
    have hps : ∀ t, t ∈ (List.range A.length).map (xPosition A) ++ [x.length + y.length - 1] ↔
        (∃ j, j < A.length ∧ t = j + ((A.map Int.toNat).take j).sum) ∨
          t = A.length + y.length := by
      intro t
      simp only [List.mem_append, List.mem_map, List.mem_range, List.mem_singleton]
      constructor
      · rintro (⟨j, hj, rfl⟩ | rfl)
        · exact Or.inl ⟨j, hj, xPosition_eq A hA j⟩
        · right; omega
      · rintro (⟨j, hj, rfl⟩ | rfl)
        · exact Or.inl ⟨j, hj, xPosition_eq A hA j⟩
        · right; omega
    have hlast : A.length + y.length ∈
        (List.range A.length).map (xPosition A) ++ [x.length + y.length - 1] :=
      (hps _).2 (Or.inr rfl)
    rw [keepOutside, if_pos hlast, keepOutside, List.append_nil,
      weave_keepOutside x y _ (A.map Int.toNat) 0 0 0 (by omega), hB']
    · simp
    · intro t _ ht
      rw [List.length_map, hB'] at ht
      rw [hps t, List.length_map]
      constructor
      · rintro (⟨j, hj, rfl⟩ | rfl)
        · exact ⟨j, hj, by omega⟩
        · omega
      · rintro ⟨j, hj, rfl⟩
        exact Or.inl ⟨j, hj, by omega⟩

theorem embed_with_array_layout_witness :
    ∃ out, embed_with_array "abcd".toList "0123456".toList [2, 0, 5] = Except.ok out ∧
      (∀ i, i < [(2 : Int), 0, 5].length →
        ∃ c, "abcd".toList[i]? = some c ∧ out[xPosition [2, 0, 5] i]? = some c) ∧
      (∃ c, "abcd".toList[[(2 : Int), 0, 5].length]? = some c ∧ out[out.length - 1]? = some c) ∧
      keepOutside ((List.range [(2 : Int), 0, 5].length).map (xPosition [2, 0, 5]) ++
        [out.length - 1]) 0 out = "0123456".toList :=
  embed_with_array_layout "abcd".toList "0123456".toList [2, 0, 5] (by decide) (by decide)
    (by decide)

/-- C5: when the entries of `A` are non-negative, `sum(A) = len(y)` and `len(x) = K + 1`,
`embed_with_array x y A` returns a string (no slice is out of range) and its length is
`len(x) + len(y) = (K + 1) + sum(A)`. -/
theorem embed_with_array_total_length (x y : Str) (A : List Int) (hA : ∀ a ∈ A, 0 ≤ a)
    (hsum : A.sum = (y.length : Int)) (hx : x.length = A.length + 1) :
    ∃ out, embed_with_array x y A = Except.ok out ∧ out.length = x.length + y.length ∧
      (out.length : Int) = ((A.length + 1 : Nat) : Int) + A.sum := by
  refine ⟨_, embed_eq_weave x y A hA hsum hx, embed_length x y A hA hsum hx, ?_⟩
  rw [embed_length x y A hA hsum hx, hsum, hx]
  push_cast
  ring

theorem embed_with_array_total_length_witness :
    ∃ out, embed_with_array "abcd".toList "0123456".toList [2, 0, 5] = Except.ok out ∧
      out.length = "abcd".toList.length + "0123456".toList.length ∧
      (out.length : Int) = (([(2 : Int), 0, 5].length + 1 : Nat) : Int) + [(2 : Int), 0, 5].sum :=
  embed_with_array_total_length "abcd".toList "0123456".toList [2, 0, 5] (by decide) (by decide)
    (by decide)

/-- C10: for a composition `A` with non-negative entries, any `y`, and two non-empty strings
`x1`, `x2` of length at least `len(A)` whose embeddings succeed, the two embedded strings have
the same length, so the assertion of `hamming_distance` holds for the pair.  (The proof uses
only that both embeddings succeed.) -/
theorem embedded_pair_equal_length (A : List Int) (y x1 x2 e1 e2 : Str)
    (_hA : ∀ a ∈ A, 0 ≤ a) (_hx1 : x1 ≠ []) (_hx2 : x2 ≠ [])
    (_hl1 : A.length ≤ x1.length) (_hl2 : A.length ≤ x2.length)
    (h1 : embed_with_array x1 y A = Except.ok e1)
    (h2 : embed_with_array x2 y A = Except.ok e2) :
    e1.length = e2.length ∧ ∃ d, hamming_distance e1 e2 = Except.ok d :=
  ⟨embed_length_indep y A x1 x2 e1 e2 h1 h2,
    hamming_distance_ok_of_length_eq e1 e2 (embed_length_indep y A x1 x2 e1 e2 h1 h2)⟩

theorem embedded_pair_equal_length_witness :
    "a0b".toList.length = "c0d".toList.length ∧
      ∃ d, hamming_distance "a0b".toList "c0d".toList = Except.ok d :=
  embedded_pair_equal_length [1] "01".toList "ab".toList "cd".toList "a0b".toList "c0d".toList
    (by decide) (by decide) (by decide) (by decide) (by decide) (by decide) (by decide)

/-- C2: the composition generator is exhaustive.  For every length `K` and target sum `T`
(any integer, in particular `T >= 0`), with `current` of size `K` and fuel beyond `K`, the call
`generateValidARec(0, K, 0, T, current, result)` started with an empty result returns, and
every sequence of `K` integers in `[0, 8]` with sum `T` and no adjacent pair `(0,0)`, `(0,1)`
or `(1,0)` is in the list it produces: the early `break` discards none of them. -/
theorem generateValidARec_exhaustive (K fuel : Nat) (T : Int) (current : List Int)
    (hlen : current.length = K) (hfuel : K < fuel) :
    ∃ current' result, generateValidARec fuel 0 K 0 T (current, []) = some (current', result) ∧
      ∀ A : List Int, A.length = K → (∀ a ∈ A, 0 ≤ a ∧ a ≤ 8) → A.sum = T →
        NoForbiddenAdjacent A → A ∈ result := by
  obtain ⟨cur', h⟩ := generateValidARec_top K fuel T current hlen hfuel
  exact ⟨cur', _, h, fun A h1 h2 h3 h4 => (mem_expectedCompositions K T A).2 ⟨h1, h2, h3, h4⟩⟩

theorem generateValidARec_exhaustive_witness :
    ∃ current' result, generateValidARec 3 0 2 0 4 ([0, 0], []) = some (current', result) ∧
      ∀ A : List Int, A.length = 2 → (∀ a ∈ A, 0 ≤ a ∧ a ≤ 8) → A.sum = 4 →
        NoForbiddenAdjacent A → A ∈ result :=
  generateValidARec_exhaustive 2 3 4 [0, 0] (by decide) (by decide)

/-- C3: the composition generator is sound.  For every length `K` and target sum `T`, with
`current` of size `K` and fuel beyond `K`, the call
`generateValidARec(0, K, 0, T, current, result)` started with an empty result returns, and
every vector of the list it produces has length `K`, entries in `[0, 8]`, sum `T`, and no
adjacent pair equal to `(0,0)`, `(0,1)` or `(1,0)`. -/
theorem generateValidARec_sound (K fuel : Nat) (T : Int) (current : List Int)
    (hlen : current.length = K) (hfuel : K < fuel) :
    ∃ current' result, generateValidARec fuel 0 K 0 T (current, []) = some (current', result) ∧
      ∀ A ∈ result, A.length = K ∧ (∀ a ∈ A, 0 ≤ a ∧ a ≤ 8) ∧ A.sum = T ∧
        NoForbiddenAdjacent A := by
  obtain ⟨cur', h⟩ := generateValidARec_top K fuel T current hlen hfuel
  exact ⟨cur', _, h, fun A hA => (mem_expectedCompositions K T A).1 hA⟩

theorem generateValidARec_sound_witness :
    ∃ current' result, generateValidARec 4 0 3 0 5 ([0, 0, 0], []) = some (current', result) ∧
      ∀ A ∈ result, A.length = 3 ∧ (∀ a ∈ A, 0 ≤ a ∧ a ≤ 8) ∧ A.sum = 5 ∧
        NoForbiddenAdjacent A :=
  generateValidARec_sound 3 4 5 [0, 0, 0] (by decide) (by decide)

/-- C6: for `L <= 30`, `generateBinaryStrings L` has exactly `2^L` elements; its `i`-th
element has length `L`, consists of the characters `'0'` and `'1'`, and read as a binary
numeral with the most significant bit first has value `i`; the elements are pairwise
distinct; `L = 0` gives the single empty string and `L = 2` gives `00, 01, 10, 11`. -/
theorem generateBinaryStrings_enumerates (L : Nat) (hL : L ≤ 30) :
    (generateBinaryStrings L).length = 2 ^ L ∧
    (∀ i, i < 2 ^ L → ∃ s, (generateBinaryStrings L)[i]? = some s ∧ s.length = L ∧
      (∀ c ∈ s, c = '0' ∨ c = '1') ∧ binValue s = i) ∧
    (generateBinaryStrings L).Nodup ∧
    generateBinaryStrings 0 = [[]] ∧
    generateBinaryStrings 2 = ["00".toList, "01".toList, "10".toList, "11".toList] := by
  refine ⟨?_, ?_, generateBinaryStrings_nodup L hL, by decide, by decide⟩
  · rw [generateBinaryStrings_eq L hL]; simp
  · intro i hi
    exact ⟨bitString L i, generateBinaryStrings_getElem? L i hL hi, bitString_length L i,
      bitString_chars L i, binValue_bitString L i hi⟩

theorem generateBinaryStrings_enumerates_witness :
    (generateBinaryStrings 3).length = 2 ^ 3 ∧
    (∀ i, i < 2 ^ 3 → ∃ s, (generateBinaryStrings 3)[i]? = some s ∧ s.length = 3 ∧
      (∀ c ∈ s, c = '0' ∨ c = '1') ∧ binValue s = i) ∧
    (generateBinaryStrings 3).Nodup ∧
    generateBinaryStrings 0 = [[]] ∧
    generateBinaryStrings 2 = ["00".toList, "01".toList, "10".toList, "11".toList] :=
  generateBinaryStrings_enumerates 3 (by decide)

/-- C7: when every embedding succeeds, the search prints, for each composition `A` of the
composition list in order, the pair `(A, y)` for the first `y` of the `y` list such that
`edit_distance` and `hamming_distance` agree on every pair `i < j` of the family
`[embed_with_array(x, y, A) for x in the x list]`, prints nothing for an `A` without such a
`y`, and ends without a fault. -/
theorem searchDriver_reports_first_witness (As : List (List Int)) (ys xs : List Str)
    (hemb : ∀ A ∈ As, ∀ y ∈ ys, ∀ x ∈ xs, ∃ e, embed_with_array x y A = Except.ok e) :
    searchDriver As ys xs =
      (As.filterMap (fun A =>
        (ys.find? (fun y => decide (IsWitness A xs y))).map (fun y => (A, y))), none) :=
  searchDriver_eq As ys xs hemb

theorem searchDriver_reports_first_witness_witness :
    searchDriver [[2], [0]] ["01".toList, "10".toList] ["00".toList, "11".toList] =
      ([[2], [0]].filterMap (fun A =>
        (["01".toList, "10".toList].find?
          (fun y => decide (IsWitness A ["00".toList, "11".toList] y))).map (fun y => (A, y))),
        none) :=
  searchDriver_reports_first_witness [[2], [0]] ["01".toList, "10".toList]
    ["00".toList, "11".toList] (by
      intro A hA y hy x hx
      simp only [List.mem_cons, List.mem_singleton, List.not_mem_nil, or_false] at hA hy hx
      rcases hA with rfl | rfl <;> rcases hy with rfl | rfl <;> rcases hx with rfl | rfl <;>
        exact ⟨_, rfl⟩)

/-- C8, evaluated on the code: `generate_valid_A()` returns a list that contains
`[0,2,0,2,0,2,0,2,4]`, every composition of that list has sum `12`, and every string of
`generateBinaryStrings(n + 1)` with `n = 9` has length `10`; so `sum(A)` differs from
`len(y)` for every pair `(A, y)` of the run. -/
theorem reference_sum_differs_from_y_length :
    ∃ res, generate_valid_A = some res ∧ [0, 2, 0, 2, 0, 2, 0, 2, 4] ∈ res ∧
      "0000000000".toList ∈ generateBinaryStrings (9 + 1) ∧
      ∀ A ∈ res, ∀ y ∈ generateBinaryStrings (9 + 1),
        A.sum = 12 ∧ y.length = 10 ∧ A.sum ≠ (y.length : Int) := by
  obtain ⟨res, hres, hmem⟩ := mem_generate_valid_A_of [0, 2, 0, 2, 0, 2, 0, 2, 4]
    (by decide) (by decide) (by decide) (by decide)
  refine ⟨res, hres, hmem, bitString_mem_generateBinaryStrings 10 0 (by decide) (by decide), ?_⟩
  intro A hA y hy
  have h1 := (sum_of_mem_generate_valid_A res hres A hA).2
  have h2 := mem_generateBinaryStrings_length 10 (by decide) y hy
  refine ⟨h1, h2, ?_⟩
  rw [h1, h2]
  decide

/-- C9, evaluated on the code: `[2,2,1,1,1,1,1,2,1]` is returned by `generate_valid_A()`,
`0000000000` by `generateBinaryStrings(n + 1)` and `000000000` by `generateBinaryStrings(n)`
with `n = 9`, and `embed_with_array` on them ends in `std::out_of_range`: the last call of
`substr` has the start position `11`, beyond the length `10` of `y`. -/
theorem reference_embedding_out_of_range :
    ∃ res, generate_valid_A = some res ∧ [2, 2, 1, 1, 1, 1, 1, 2, 1] ∈ res ∧
      "0000000000".toList ∈ generateBinaryStrings (9 + 1) ∧
      "000000000".toList ∈ generateBinaryStrings 9 ∧
      embed_with_array "000000000".toList "0000000000".toList [2, 2, 1, 1, 1, 1, 1, 2, 1]
        = Except.error Fault.outOfRange ∧
      substr "0000000000".toList 11 1 = Except.error Fault.outOfRange := by
  obtain ⟨res, hres, hmem⟩ := mem_generate_valid_A_of [2, 2, 1, 1, 1, 1, 1, 2, 1]
    (by decide) (by decide) (by decide) (by decide)
  exact ⟨res, hres, hmem, bitString_mem_generateBinaryStrings 10 0 (by decide) (by decide),
    bitString_mem_generateBinaryStrings 9 0 (by decide) (by decide), by decide, by decide⟩

/-- C12: `edit_distance` satisfies the triangle inequality:
`edit_distance s u <= edit_distance s t + edit_distance t u` for all strings `s`, `t`, `u`. -/
theorem edit_distance_triangle (s t u : Str) :
    edit_distance s u ≤ edit_distance s t + edit_distance t u :=
  edit_distance_triangle_aux s t u

/-- C13: `edit_distance` is symmetric: `edit_distance s t = edit_distance t s` for all strings
`s` and `t`, of equal or different lengths. -/
theorem edit_distance_symmetric (s t : Str) : edit_distance s t = edit_distance t s :=
  edit_distance_comm s t

/-- C14: `edit_distance s t >= |len(s) - len(t)|` for all strings `s` and `t`. -/
theorem edit_distance_ge_length_difference (s t : Str) :
    |(s.length : Int) - (t.length : Int)| ≤ (edit_distance s t : Int) := by
  have h := edit_distance_length_bounds s t
  rw [abs_le]
  omega

/-- C11: for every length `K` and target sum `T`, with `current` of size `K` and fuel beyond
`K`, the list produced by `generateValidARec(0, K, 0, T, current, result)` from an empty
result is in strictly increasing lexicographic order (entries compared from left to right
by value), and so contains no sequence twice. -/
theorem generateValidARec_strictly_increasing (K fuel : Nat) (T : Int) (current : List Int)
    (hlen : current.length = K) (hfuel : K < fuel) :
    ∃ current' result, generateValidARec fuel 0 K 0 T (current, []) = some (current', result) ∧
      result.Pairwise LexLt ∧ result.Nodup := by
  obtain ⟨cur', h⟩ := generateValidARec_top K fuel T current hlen hfuel
  exact ⟨cur', _, h, expectedCompositions_pairwise K T, expectedCompositions_nodup K T⟩

theorem generateValidARec_strictly_increasing_witness :
    ∃ current' result, generateValidARec 4 0 3 0 5 ([0, 0, 0], []) = some (current', result) ∧
      result.Pairwise LexLt ∧ result.Nodup :=
  generateValidARec_strictly_increasing 3 4 5 [0, 0, 0] (by decide) (by decide)

/-- C15: for strings `s` and `t` of equal length, `hamming_distance s t` is the number of
indices `i` with `s[i] != t[i]`; `hamming_distance s s` is `0`, `hamming_distance s t` equals
`hamming_distance t s`, and `hamming_distance "1010" "1001"` is `2`. -/
theorem hamming_distance_counts_differences (s t : Str) (h : s.length = t.length) :
    hamming_distance s t =
      Except.ok (Finset.filter (fun i => s[i]? ≠ t[i]?) (Finset.range s.length)).card ∧
    hamming_distance s s = Except.ok 0 ∧
    hamming_distance s t = hamming_distance t s ∧
    hamming_distance "1010".toList "1001".toList = Except.ok 2 := by
  refine ⟨hamming_eq_card s t h, ?_, ?_, by decide⟩
  · rw [hamming_eq_mismatches s s rfl, mismatches_self]
  · rw [hamming_eq_mismatches s t h, hamming_eq_mismatches t s h.symm, mismatches_comm]

theorem hamming_distance_counts_differences_witness :
    hamming_distance "0110".toList "1100".toList =
      Except.ok (Finset.filter (fun i => "0110".toList[i]? ≠ "1100".toList[i]?)
        (Finset.range "0110".toList.length)).card ∧
    hamming_distance "0110".toList "0110".toList = Except.ok 0 ∧
    hamming_distance "0110".toList "1100".toList = hamming_distance "1100".toList "0110".toList ∧
    hamming_distance "1010".toList "1001".toList = Except.ok 2 :=
  hamming_distance_counts_differences "0110".toList "1100".toList (by decide)

/-- C16, evaluated on the code: in the run of `main` every `x` has length `9`, the length of
`A`, so the character appended after the loop, `x.back()`, is `x[8]`, which the loop has
already emitted at `i = 8`.  For `x = 000000001`, `y = 0000000000` and
`A = [0,2,0,2,0,2,0,2,4]` the embedded string has length `20 = len(x) + len(y) + 1` and holds
the single `1` of `x` twice. -/
theorem reference_embedding_repeats_last_bit :
    (∀ x ∈ generateBinaryStrings 9, x.length = 9 ∧ x.getLast? = x[8]?) ∧
    (∃ res, generate_valid_A = some res ∧ [0, 2, 0, 2, 0, 2, 0, 2, 4] ∈ res) ∧
    "000000001".toList ∈ generateBinaryStrings 9 ∧
    "0000000000".toList ∈ generateBinaryStrings (9 + 1) ∧
    embed_with_array "000000001".toList "0000000000".toList [0, 2, 0, 2, 0, 2, 0, 2, 4]
      = Except.ok "00000000000000001001".toList ∧
    "00000000000000001001".toList.length
      = "000000001".toList.length + "0000000000".toList.length + 1 ∧
    "00000000000000001001".toList.count '1' = 2 ∧ "000000001".toList.count '1' = 1 := by
  refine ⟨?_, mem_generate_valid_A_of [0, 2, 0, 2, 0, 2, 0, 2, 4]
      (by decide) (by decide) (by decide) (by decide),
    bitString_mem_generateBinaryStrings 9 1 (by decide) (by decide),
    bitString_mem_generateBinaryStrings 10 0 (by decide) (by decide),
    by decide, by decide, by decide, by decide⟩
  intro x hx
  have hl := mem_generateBinaryStrings_length 9 (by decide) x hx
  refine ⟨hl, ?_⟩
  rw [List.getLast?_eq_getElem?, hl]

/-- C17: for target sum `1` and every length `K >= 2`, with `current` of size `K` and fuel
beyond `K`, the generator returns the empty list; every sequence of `K` candidate values
with sum `1` consists of a single `1` among zeros and fails the adjacency loop; for `K = 2`
both `[0,1]` and `[1,0]` fail it. -/
theorem generateValidARec_target_one_empty (K fuel : Nat) (current : List Int) (hK : 2 ≤ K)
    (hlen : current.length = K) (hfuel : K < fuel) :
    (∃ current', generateValidARec fuel 0 K 0 1 (current, []) = some (current', [])) ∧
    (∀ A : List Int, A.length = K → (∀ a ∈ A, 0 ≤ a ∧ a ≤ 8) → A.sum = 1 →
      (∀ a ∈ A, a = 0 ∨ a = 1) ∧ A.count 1 = 1 ∧
        validLoop A (List.range (K - 1)) = false) ∧
    validLoop [0, 1] (List.range (2 - 1)) = false ∧
    validLoop [1, 0] (List.range (2 - 1)) = false := by
  refine ⟨?_, ?_, by decide, by decide⟩
  · obtain ⟨cur', h⟩ := generateValidARec_top K fuel 1 current hlen hfuel
    rw [expectedCompositions_target_one K hK] at h
    exact ⟨cur', h⟩
  · intro A h1 h2 h3
    have hnn : ∀ a ∈ A, 0 ≤ a := fun a ha => (h2 a ha).1
    obtain ⟨h4, h5⟩ := single_one_of_sum_one A hnn h3
    refine ⟨h4, h5, ?_⟩
    have hno := not_noForbidden_of_sum_one A (by omega) hnn h3
    rw [← validLoop_iff_noForbiddenAdjacent, h1] at hno
    simpa using hno

theorem generateValidARec_target_one_empty_witness :
    (∃ current', generateValidARec 3 0 2 0 1 ([0, 0], []) = some (current', [])) ∧
    (∀ A : List Int, A.length = 2 → (∀ a ∈ A, 0 ≤ a ∧ a ≤ 8) → A.sum = 1 →
      (∀ a ∈ A, a = 0 ∨ a = 1) ∧ A.count 1 = 1 ∧
        validLoop A (List.range (2 - 1)) = false) ∧
    validLoop [0, 1] (List.range (2 - 1)) = false ∧
    validLoop [1, 0] (List.range (2 - 1)) = false :=
  generateValidARec_target_one_empty 2 3 [0, 0] (by decide) (by decide) (by decide)

/-- C18: every element of every vector returned by `generate_valid_A()` lies in
`{0, ..., 6}`, although the loop of `generateValidARec` proposes the values `7` and `8` as
well; the bound is attained, for example by `[0,6,0,2,0,2,0,2,0]`. -/
theorem generate_valid_A_entries_le_six :
    ∃ res, generate_valid_A = some res ∧
      (∀ A ∈ res, ∀ a ∈ A, 0 ≤ a ∧ a ≤ 6) ∧
      [0, 6, 0, 2, 0, 2, 0, 2, 0] ∈ res ∧
      7 ∈ candidateValues ∧ 8 ∈ candidateValues := by
  refine ⟨_, generate_valid_A_eq, ?_, ?_, by decide, by decide⟩
  · intro A hA
    exact entries_le_six_of_valid A ((mem_expectedCompositions 9 12 A).1 hA)
  · exact (mem_expectedCompositions 9 12 _).2
      ⟨by decide, by decide, by decide,
        (validLoop_iff_noForbiddenAdjacent _).1 (by decide)⟩

/-- C19: for strings `s` and `t` of equal length, `hamming_distance s t` returns a value `h`
with `edit_distance s t <= h`; hence the test `edit_distance != hamming_distance` of the search
holds for the pair exactly when the edit distance is strictly smaller than the Hamming
distance. -/
theorem edit_distance_le_hamming_distance (s t : Str) (h : s.length = t.length) :
    ∃ d, hamming_distance s t = Except.ok d ∧ edit_distance s t ≤ d ∧
      (edit_distance s t ≠ d ↔ edit_distance s t < d) := by
  have hle := edit_distance_le_mismatches s t h
  refine ⟨mismatches s t, hamming_eq_mismatches s t h, hle, ?_⟩
  omega

theorem edit_distance_le_hamming_distance_witness :
    ∃ d, hamming_distance "0101".toList "1010".toList = Except.ok d ∧
      edit_distance "0101".toList "1010".toList ≤ d ∧
      (edit_distance "0101".toList "1010".toList ≠ d ↔
        edit_distance "0101".toList "1010".toList < d) :=
  edit_distance_le_hamming_distance "0101".toList "1010".toList (by decide)

/-- C20: for `A` of length `K` with non-negative entries, `y` with `len(y) = sum(A)` and
`x1`, `x2` of length `K + 1`, both embeddings succeed and
`hamming_distance(embed(x1), embed(x2))` equals `hamming_distance(x1, x2)`, which is a
defined value; in particular equal embeddings come from equal strings. -/
theorem embedding_preserves_hamming_distance (A : List Int) (y x1 x2 : Str)
    (hA : ∀ a ∈ A, 0 ≤ a) (hsum : A.sum = (y.length : Int))
    (hx1 : x1.length = A.length + 1) (hx2 : x2.length = A.length + 1) :
    ∃ e1 e2 d, embed_with_array x1 y A = Except.ok e1 ∧ embed_with_array x2 y A = Except.ok e2 ∧
      hamming_distance e1 e2 = Except.ok d ∧ hamming_distance x1 x2 = Except.ok d ∧
      (e1 = e2 → x1 = x2) := by
  have hl1 := embed_length x1 y A hA hsum hx1
  have hl2 := embed_length x2 y A hA hsum hx2
  have hm := mismatches_embed x1 x2 y (A.map Int.toNat) (by rw [List.length_map]; exact hx1)
    (by rw [List.length_map]; exact hx2)
  rw [List.length_map] at hm
  refine ⟨_, _, mismatches x1 x2, embed_eq_weave x1 y A hA hsum hx1,
    embed_eq_weave x2 y A hA hsum hx2, ?_, hamming_eq_mismatches x1 x2 (by omega), ?_⟩
  · rw [hamming_eq_mismatches _ _ (by omega), hm]
  · intro he
    rw [he, mismatches_self] at hm
    exact eq_of_mismatches_eq_zero x1 x2 (by omega) hm.symm

theorem embedding_preserves_hamming_distance_witness :
    ∃ e1 e2 d, embed_with_array "010".toList "110".toList [2, 1] = Except.ok e1 ∧
      embed_with_array "111".toList "110".toList [2, 1] = Except.ok e2 ∧
      hamming_distance e1 e2 = Except.ok d ∧
      hamming_distance "010".toList "111".toList = Except.ok d ∧
      (e1 = e2 → "010".toList = "111".toList) :=
  embedding_preserves_hamming_distance [2, 1] "110".toList "010".toList "111".toList
    (by decide) (by decide) (by decide) (by decide)

end HamToED
